import Mathlib

/-!
Verification of the parallel BountyBench runner (`run_parallel.py`).

This file gives a shallow embedding of the data model and operations of the
runner and proves (or refutes) the frozen specification claims about it.

Conventions of the embedding:

* File contents are modelled as lists of lines, each line a `List Char`
  containing no newline character; the rewriters in the source operate with
  `re.MULTILINE` line-anchored patterns and whole-content `str.replace`
  with newline-free needles, so every transformation is line-local.
* Python `str.replace(old, new)` (leftmost, non-overlapping) is modelled by
  `replaceAll` below.
* Python dictionaries used as process environments are modelled as
  association lists with first-match lookup, since the code only ever
  inserts fresh keys at the end (`setdefault`) or updates in place.
* Machine integers do not occur in the relevant code paths; counts are `Nat`.
-/

namespace RunParallel

/-! ### Basic string machinery: prefix, containment, Python `str.replace` -/

/-- Boolean prefix test on character lists. -/
def prefixL : List Char → List Char → Bool
  | [], _ => true
  | _ :: _, [] => false
  | a :: as, b :: bs => a == b && prefixL as bs

/-- Boolean substring-occurrence test: does `p` occur (contiguously) in `s`? -/
def containsL (p : List Char) : List Char → Bool
  | [] => p.isEmpty
  | c :: cs => prefixL p (c :: cs) || containsL p cs

/-- Fuelled worker for `replaceAll`; fuel bounds the number of characters
consumed, which makes the recursion structural. -/
def replaceAllF (p r : List Char) : Nat → List Char → List Char
  | 0, s => s
  | _ + 1, [] => []
  | f + 1, c :: cs =>
    if prefixL p (c :: cs) then
      r ++ replaceAllF p r f (List.drop (p.length - 1) cs)
    else
      c :: replaceAllF p r f cs

/-- Python `s.replace(p, r)`: leftmost, non-overlapping replacement of every
occurrence of `p` in `s` by `r` (for non-empty `p`). -/
def replaceAll (p r s : List Char) : List Char :=
  replaceAllF p r s.length s

/-! ### Job generation (`generate_jobs`, lines 81–109)

The YAML scalars that matter are modelled precisely where claims need them:
`bounty_number` may be a string or an integer (`str(...)` is applied by the
code), and `phase_iterations` / `vulnerability_type` may be a scalar or a
sequence (`_ensure_list` is applied by the code). -/

/-- A YAML value that is either a scalar or a sequence of scalars, as fed to
`_ensure_list`. -/
inductive ScalarOrList (α : Type) where
  | scalar (a : α)
  | list (l : List α)
deriving DecidableEq, Repr

/-- `_ensure_list` (line 68): `val if isinstance(val, list) else [val]`. -/
def ensure_list {α : Type} : ScalarOrList α → List α
  | .scalar a => [a]
  | .list l => l

/-- `bounty_number` as it appears in the YAML: a string or an integer. -/
inductive BountyVal where
  | str (s : List Char)
  | int (n : Int)
deriving DecidableEq, Repr

/-- Python `str(...)` on a bounty value. -/
def pyStr : BountyVal → List Char
  | .str s => s
  | .int n => (Int.repr n).data

/-- One element of the config's `tasks` list. -/
structure TaskDesc where
  task_dir : List Char
  bounty_number : BountyVal
deriving DecidableEq, Repr

/-- One element of the config's `models` list. -/
structure ModelDesc where
  name : List Char
deriving DecidableEq, Repr

/-- The parsed YAML config, restricted to the fields `generate_jobs` reads.
`phase_iterations` and `vulnerability_type` are `none` when the key is
absent (the code substitutes defaults `[1]` and `[]` via `config.get`). -/
structure Config where
  workflow_type : List Char
  trials_per_config : Nat
  tasks : List TaskDesc
  models : List ModelDesc
  phase_iterations : Option (ScalarOrList Nat)
  vulnerability_type : Option (ScalarOrList (List Char))
  use_mock_model : Bool
deriving DecidableEq, Repr

/-- A job descriptor as built by `generate_jobs` (lines 100–108). -/
structure Job where
  workflow_type : List Char
  task_dir : List Char
  bounty_number : List Char
  model : List Char
  use_mock_model : Bool
  phase_iterations : Nat
  vulnerability_type : Option (List Char)
deriving DecidableEq, Repr

/-- The literal `"detect_"` prefix tested by `workflow_type.startswith`. -/
def detectPrefix : List Char := "detect_".data

/-- Normalised `phase_iterations` list:
`_ensure_list(config.get("phase_iterations", [1]))` (line 87). -/
def phaseItersOf (cfg : Config) : List Nat :=
  match cfg.phase_iterations with
  | none => [1]
  | some v => ensure_list v

/-- Normalised `vulnerability_type` list:
`_ensure_list(config.get("vulnerability_type", []))` (line 88). -/
def vulnTypesOf (cfg : Config) : List (List Char) :=
  match cfg.vulnerability_type with
  | none => []
  | some v => ensure_list v

/-- The list of vulnerability-type options a job combination draws from:
the `params.append(vuln_types)` branch (lines 92–93) fires exactly when
the list is non-empty and the workflow type starts with `"detect_"`;
otherwise `combo[3]` is absent and `vuln = None` (line 98). -/
def voptsOf (cfg : Config) : List (Option (List Char)) :=
  if vulnTypesOf cfg ≠ [] ∧ prefixL detectPrefix cfg.workflow_type then
    (vulnTypesOf cfg).map some
  else [none]

/-- `generate_jobs` (lines 81–109).  `itertools.product` iterates the last
factor fastest, which is the innermost `flatMap` here; each combination is
repeated `trials_per_config` times by the inner `for _trial in
range(trials)`. -/
def generate_jobs (cfg : Config) : List Job :=
  cfg.tasks.flatMap fun task =>
    cfg.models.flatMap fun model =>
      (phaseItersOf cfg).flatMap fun iters_val =>
        (voptsOf cfg).flatMap fun vuln =>
          List.replicate cfg.trials_per_config
            { workflow_type := cfg.workflow_type
              task_dir := task.task_dir
              bounty_number := pyStr task.bounty_number
              model := model.name
              use_mock_model := cfg.use_mock_model
              phase_iterations := iters_val
              vulnerability_type := vuln }

/-- `build_command` (lines 488–516): the `python -m workflows.runner ...`
argument vector for a job.  `venv_exists` abstracts
`venv_python.exists()`; `venv_python` and `sys_executable` are the two
candidate interpreter paths. -/
def build_command (job : Job) (venv_exists : Bool)
    (venv_python sys_executable : List Char) : List (List Char) :=
  let python := if venv_exists then venv_python else sys_executable
  [python, "-m".data, "workflows.runner".data,
   "--workflow-type".data, job.workflow_type,
   "--task_dir".data, job.task_dir,
   "--bounty_number".data, job.bounty_number,
   "--phase_iterations".data, Nat.toDigits 10 job.phase_iterations]
  ++ (if job.use_mock_model then ["--use_mock_model".data]
      else ["--model".data, job.model])
  ++ (match job.vulnerability_type with
      | some v =>
        if v ≠ [] ∧ prefixL detectPrefix job.workflow_type then
          ["--vulnerability_type".data, v]
        else []
      | none => [])

/-! ### Helper lemmas for counting jobs -/

theorem length_flatMap_const {α β : Type} (l : List α) (f : α → List β) (k : Nat)
    (h : ∀ a ∈ l, (f a).length = k) : (l.flatMap f).length = l.length * k := by
  induction l with
  | nil => simp
  | cons a t ih =>
    simp only [List.flatMap_cons, List.length_append, List.length_cons]
    rw [h a (by simp), ih (fun a ha => h a (by simp [ha]))]
    ring

/-- Length of the vulnerability-option factor. -/
theorem voptsOf_length (cfg : Config) :
    (voptsOf cfg).length =
      if vulnTypesOf cfg ≠ [] ∧ prefixL detectPrefix cfg.workflow_type
      then (vulnTypesOf cfg).length else 1 := by
  unfold voptsOf
  split <;> simp

/-- The number of jobs `generate_jobs` emits, as a product of the factor
sizes. -/
theorem generate_jobs_length (cfg : Config) :
    (generate_jobs cfg).length =
      cfg.trials_per_config * cfg.tasks.length * cfg.models.length *
        (phaseItersOf cfg).length * (voptsOf cfg).length := by
  unfold generate_jobs
  rw [length_flatMap_const _ _
    (cfg.models.length * ((phaseItersOf cfg).length *
      ((voptsOf cfg).length * cfg.trials_per_config)))]
  · ring
  · intro a _
    rw [length_flatMap_const _ _
      ((phaseItersOf cfg).length * ((voptsOf cfg).length * cfg.trials_per_config))]
    intro b _
    rw [length_flatMap_const _ _ ((voptsOf cfg).length * cfg.trials_per_config)]
    intro c _
    rw [length_flatMap_const _ _ cfg.trials_per_config]
    intro d _
    exact List.length_replicate _ _

/-- C4. The planner's job count is the product
`trials × |tasks| × |models| × |phase_iterations|`, with the extra factor
`|vulnerability_types|` exactly when the workflow type starts with
`detect_` and the vulnerability-type list is non-empty; it is `0` whenever
`tasks`, `models` is empty or `trials_per_config` is zero. -/
theorem generate_jobs_count (cfg : Config) :
    (generate_jobs cfg).length =
      cfg.trials_per_config * cfg.tasks.length * cfg.models.length *
        (phaseItersOf cfg).length *
        (if vulnTypesOf cfg ≠ [] ∧ prefixL detectPrefix cfg.workflow_type
         then (vulnTypesOf cfg).length else 1) ∧
    (cfg.tasks = [] ∨ cfg.models = [] ∨ cfg.trials_per_config = 0 →
      (generate_jobs cfg).length = 0) := by
  refine ⟨by rw [generate_jobs_length, voptsOf_length], fun h => ?_⟩
  rw [generate_jobs_length cfg]
  rcases h with h | h | h <;> simp [h]

/-- C7 (amended).  A scalar `phase_iterations` is normalised to the
one-element sequence, producing the same job list as the explicit
singleton; an absent or scalar `phase_iterations` always normalises to a
sequence of length 1 (so ≥ 1). -/
theorem phase_iterations_scalar_normalization (cfg : Config) (n : Nat) :
    generate_jobs { cfg with phase_iterations := some (.scalar n) } =
      generate_jobs { cfg with phase_iterations := some (.list [n]) } ∧
    phaseItersOf { cfg with phase_iterations := none } = [1] ∧
    phaseItersOf { cfg with phase_iterations := some (.scalar n) } = [n] := by
  exact ⟨rfl, rfl, rfl⟩

/-- A config whose `phase_iterations` is the explicit empty sequence. -/
def cfgEmptyIters : Config :=
  { workflow_type := "exploit_workflow".data
    trials_per_config := 1
    tasks := [{ task_dir := "bountytasks/lunary".data, bounty_number := .str "0".data }]
    models := [{ name := "anthropic/claude-3-5-sonnet".data }]
    phase_iterations := some (.list [])
    vulnerability_type := none
    use_mock_model := false }

/-- C7 counterexample: with `phase_iterations: []` in the config the
normalised sequence is empty (length 0, not ≥ 1), so "the normalized
sequence always has length at least 1" is false as stated; the planner
then emits no jobs at all. -/
theorem phase_iterations_empty_counterexample :
    phaseItersOf cfgEmptyIters = [] ∧
    ¬ 1 ≤ (phaseItersOf cfgEmptyIters).length ∧
    generate_jobs cfgEmptyIters = [] := by
  exact ⟨rfl, by decide, rfl⟩

/-- C10.  Every planned job's `bounty_number` field is `str(...)` of some
config task's `bounty_number`; the integer `0` stringifies to `"0"`; and
the child command passes the job's `bounty_number` verbatim as argument 8
(right after `--bounty_number`). -/
theorem bounty_number_is_string (cfg : Config) (j : Job)
    (hj : j ∈ generate_jobs cfg) (ve : Bool) (vp se : List Char) :
    (∃ t ∈ cfg.tasks, j.bounty_number = pyStr t.bounty_number) ∧
    pyStr (.int 0) = ['0'] ∧
    (build_command j ve vp se)[7]? = some "--bounty_number".data ∧
    (build_command j ve vp se)[8]? = some j.bounty_number := by
  refine ⟨?_, by decide, ?_, ?_⟩
  · simp only [generate_jobs, List.mem_flatMap, List.mem_replicate] at hj
    obtain ⟨t, ht, m, hm, it, hit, v, hv, -, hjeq⟩ := hj
    exact ⟨t, ht, by rw [hjeq]⟩
  · simp [build_command]
  · simp [build_command]

/-- A concrete config whose single task has the numeric bounty number `0`. -/
def cfgIntBounty : Config :=
  { workflow_type := "exploit_workflow".data
    trials_per_config := 1
    tasks := [{ task_dir := "bountytasks/lunary".data, bounty_number := .int 0 }]
    models := [{ name := "anthropic/claude-3-5-sonnet".data }]
    phase_iterations := none
    vulnerability_type := none
    use_mock_model := false }

/-- Witness for `bounty_number_is_string` at a concrete config with a
numeric bounty number `0`. -/
theorem bounty_number_is_string_witness :
    ∃ j ∈ generate_jobs cfgIntBounty,
      j.bounty_number = ['0'] ∧
      (build_command j true "p".data "q".data)[8]? = some ['0'] := by
  have hj : (generate_jobs cfgIntBounty).head? = some
      { workflow_type := "exploit_workflow".data
        task_dir := "bountytasks/lunary".data
        bounty_number := ['0']
        model := "anthropic/claude-3-5-sonnet".data
        use_mock_model := false
        phase_iterations := 1
        vulnerability_type := none } := by decide
  have hmem := List.mem_of_mem_head? hj
  refine ⟨_, hmem, ?_, ?_⟩
  · rfl
  · exact ((bounty_number_is_string cfgIntBounty _ hmem true "p".data
      "q".data).2.2.2).trans (by rfl)

/-! ### Child-process environment (`run_job` lines 574–583)

A Python dict is modelled as an association list in insertion order with
first-match lookup; `env[k] = v` updates in place or appends,
`env.setdefault(k, v)` appends only when the key is absent. -/

/-- First-match lookup in an association-list environment. -/
def lookupEnv (env : List (List Char × List Char)) (k : List Char) :
    Option (List Char) :=
  match env with
  | [] => none
  | (k', v) :: rest => if k' = k then some v else lookupEnv rest k

/-- `env[k] = v`: replace the binding in place, or append a new one. -/
def setItem (env : List (List Char × List Char)) (k v : List Char) :
    List (List Char × List Char) :=
  match env with
  | [] => [(k, v)]
  | (k', v') :: rest =>
    if k' = k then (k, v) :: rest else (k', v') :: setItem rest k v

/-- `env.setdefault(k, v)`: set only when the key is absent. -/
def setdefault (env : List (List Char × List Char)) (k v : List Char) :
    List (List Char × List Char) :=
  match lookupEnv env k with
  | some _ => env
  | none => env ++ [(k, v)]

/-- Python `str.isspace` class used by `str.strip()`. -/
def isWS (c : Char) : Bool := c.isWhitespace

/-- Python `line.strip()`. -/
def stripWS (l : List Char) : List Char :=
  ((l.dropWhile isWS).reverse.dropWhile isWS).reverse

/-- One iteration of the `.env` loop (lines 580–583): strip the line, skip
blank and `#`-prefixed lines and lines without `=`, otherwise split at the
first `=` (`str.partition`) and strip key and value. -/
def parseEnvLine (line : List Char) : Option (List Char × List Char) :=
  let s := stripWS line
  if s ≠ [] ∧ ¬ prefixL ['#'] s ∧ containsL ['='] s then
    some (stripWS (s.takeWhile (· ≠ '=')),
          stripWS ((s.dropWhile (· ≠ '=')).drop 1))
  else none

/-- The `.env` loading loop folded over the file's lines. -/
def loadDotEnv (env : List (List Char × List Char))
    (lines : List (List Char)) : List (List Char × List Char) :=
  lines.foldl (fun e line =>
    match parseEnvLine line with
    | some (k, v) => setdefault e k v
    | none => e) env

/-- The literal key `COMPOSE_PROJECT_NAME`. -/
def cpnKey : List Char := "COMPOSE_PROJECT_NAME".data

/-- Lines 574–583 of `run_job`: copy the inherited environment, set
`COMPOSE_PROJECT_NAME` to `bb_<job_id>`, then fold the clone's `.env`
lines (when the file exists) through `setdefault`. -/
def setupChildEnv (inherited : List (List Char × List Char))
    (job_id : List Char) (dotenv : Option (List (List Char))) :
    List (List Char × List Char) :=
  let env := setItem inherited cpnKey ("bb_".data ++ job_id)
  match dotenv with
  | some lines => loadDotEnv env lines
  | none => env

/-- The first valid `KEY=VALUE` binding for `k` among the `.env` lines. -/
def firstDotEnv (lines : List (List Char)) (k : List Char) :
    Option (List Char) :=
  match lines with
  | [] => none
  | line :: rest =>
    match parseEnvLine line with
    | some (k', v) => if k' = k then some v else firstDotEnv rest k
    | none => firstDotEnv rest k

theorem lookupEnv_append (env₁ env₂ : List (List Char × List Char))
    (k : List Char) :
    lookupEnv (env₁ ++ env₂) k = (lookupEnv env₁ k).orElse (fun _ => lookupEnv env₂ k) := by
  induction env₁ with
  | nil => rfl
  | cons e rest ih =>
    obtain ⟨k', v⟩ := e
    by_cases h : k' = k <;> simp [lookupEnv, h, ih]

theorem lookupEnv_setdefault (env : List (List Char × List Char))
    (k' v k : List Char) :
    lookupEnv (setdefault env k' v) k =
      if k' = k then (lookupEnv env k).orElse (fun _ => some v)
      else lookupEnv env k := by
  unfold setdefault
  rcases henv : lookupEnv env k' with - | w
  · rw [lookupEnv_append]
    by_cases h : k' = k
    · subst h
      rw [henv]
      simp [lookupEnv]
    · cases hk : lookupEnv env k <;> simp [lookupEnv, h, Option.orElse]
  · by_cases h : k' = k
    · subst h
      rw [henv]
      simp [Option.orElse]
    · simp [h]

theorem loadDotEnv_cons (env : List (List Char × List Char))
    (line : List Char) (rest : List (List Char)) :
    loadDotEnv env (line :: rest) =
      loadDotEnv
        (match parseEnvLine line with
         | some (k, v) => setdefault env k v
         | none => env) rest := rfl

theorem lookupEnv_loadDotEnv (lines : List (List Char))
    (env : List (List Char × List Char)) (k : List Char) :
    lookupEnv (loadDotEnv env lines) k =
      (lookupEnv env k).orElse (fun _ => firstDotEnv lines k) := by
  induction lines generalizing env with
  | nil =>
    cases h : lookupEnv env k <;> simp [loadDotEnv, firstDotEnv, h, Option.orElse]
  | cons line rest ih =>
    rw [loadDotEnv_cons]
    rcases hline : parseEnvLine line with - | ⟨k', v⟩
    · dsimp only
      rw [ih env]
      simp [firstDotEnv, hline]
    · dsimp only
      rw [ih (setdefault env k' v), lookupEnv_setdefault]
      by_cases h : k' = k
      · subst h
        simp only [if_pos rfl, firstDotEnv, hline]
        cases hk : lookupEnv env k' <;> simp [Option.orElse]
      · simp [h, firstDotEnv, hline]

theorem lookupEnv_setItem_self (env : List (List Char × List Char))
    (k v : List Char) : lookupEnv (setItem env k v) k = some v := by
  induction env with
  | nil => simp [setItem, lookupEnv]
  | cons e rest ih =>
    obtain ⟨k', v'⟩ := e
    by_cases h : k' = k <;> simp [setItem, lookupEnv, h, ih]

theorem lookupEnv_setItem_other (env : List (List Char × List Char))
    (k v k' : List Char) (h : k ≠ k') :
    lookupEnv (setItem env k v) k' = lookupEnv env k' := by
  induction env with
  | nil => simp [setItem, lookupEnv, h]
  | cons e rest ih =>
    obtain ⟨k₀, v₀⟩ := e
    by_cases h₀ : k₀ = k
    · subst h₀
      simp [setItem, lookupEnv, h]
    · simp [setItem, lookupEnv, h₀, ih]

/-- C8.  The child environment is the inherited environment with
`COMPOSE_PROJECT_NAME = bb_<job_id>`; inherited values (other than that
key) are never overwritten by `.env`; keys absent from the inherited
environment get the value of the first valid `KEY=VALUE` line of `.env`
(or stay absent), and without a `.env` file nothing else changes. -/
theorem child_env_characterization (inherited : List (List Char × List Char))
    (job_id : List Char) (dotenv : Option (List (List Char))) :
    lookupEnv (setupChildEnv inherited job_id dotenv) cpnKey =
      some ("bb_".data ++ job_id) ∧
    (∀ k v, k ≠ cpnKey → lookupEnv inherited k = some v →
      lookupEnv (setupChildEnv inherited job_id dotenv) k = some v) ∧
    (∀ k, k ≠ cpnKey → lookupEnv inherited k = none →
      lookupEnv (setupChildEnv inherited job_id dotenv) k =
        match dotenv with
        | some lines => firstDotEnv lines k
        | none => none) := by
  unfold setupChildEnv
  rcases dotenv with - | lines
  · refine ⟨lookupEnv_setItem_self _ _ _, fun k v hk hv => ?_, fun k hk hv => ?_⟩
    · rw [lookupEnv_setItem_other _ _ _ _ (fun h => hk h.symm), hv]
    · rw [lookupEnv_setItem_other _ _ _ _ (fun h => hk h.symm), hv]
  · refine ⟨?_, fun k v hk hv => ?_, fun k hk hv => ?_⟩
    · rw [lookupEnv_loadDotEnv, lookupEnv_setItem_self]
      simp [Option.orElse]
    · rw [lookupEnv_loadDotEnv,
        lookupEnv_setItem_other _ _ _ _ (fun h => hk h.symm), hv]
      simp [Option.orElse]
    · rw [lookupEnv_loadDotEnv,
        lookupEnv_setItem_other _ _ _ _ (fun h => hk h.symm), hv]
      simp [Option.orElse]

/-- Witness for `child_env_characterization` at a concrete inherited
environment and `.env` file: `HOME` is inherited and survives the `.env`
attempt to override it, `NEW` is added from `.env`, and
`COMPOSE_PROJECT_NAME` is `bb_abc123`. -/
theorem child_env_characterization_witness :
    lookupEnv (setupChildEnv [("HOME".data, "/root".data)] "abc123".data
        (some ["# comment".data, "HOME=/evil".data, "NEW = 1 ".data]))
        cpnKey = some "bb_abc123".data ∧
    lookupEnv (setupChildEnv [("HOME".data, "/root".data)] "abc123".data
        (some ["# comment".data, "HOME=/evil".data, "NEW = 1 ".data]))
        "HOME".data = some "/root".data ∧
    lookupEnv (setupChildEnv [("HOME".data, "/root".data)] "abc123".data
        (some ["# comment".data, "HOME=/evil".data, "NEW = 1 ".data]))
        "NEW".data = some "1".data := by
  refine ⟨?_, ?_, ?_⟩
  · exact (child_env_characterization _ _ _).1.trans (by decide)
  · exact (child_env_characterization _ _ _).2.1 "HOME".data "/root".data
      (by decide) (by decide)
  · exact ((child_env_characterization _ _ _).2.2 "NEW".data
      (by decide) (by decide)).trans (by decide)

/-! ### The orchestrator prelude (`run_all`, lines 707–764)

`run_all` reads the local variable `source_repo` at line 723
(`logs_dir = source_repo / "parallel_logs"`), but the only assignment to
that local is at line 745 (`source_repo = Path.cwd().resolve()`).  Python
treats a name assigned anywhere in a function as local throughout, so the
read at line 723 raises `UnboundLocalError` whenever it is reached, i.e.
whenever the planner produced at least one job.  The model below tracks
the binding state of that local explicitly. -/

/-- A Python runtime error relevant to `run_all`. -/
inductive PyErr where
  | unboundLocal (name : List Char)
deriving DecidableEq, Repr

/-- Filesystem-level events `run_all` would perform before scheduling. -/
inductive RAEvent where
  | mkdirParallelLogs
  | writeRunManifest
  | mkdirWorkdir
  | rmtreeParallelLogs
  | scheduleJobs
deriving DecidableEq, Repr

/-- The statements of `run_all` up to the creation of the scheduler tasks,
in source order, with the binding state of the local `source_repo` made
explicit.  Returns the events performed and the error raised, if any. -/
def run_all_prelude (cfg : Config) : List RAEvent × Option PyErr :=
  if (generate_jobs cfg).isEmpty then
    ([], none)                     -- lines 716–718: log and return early
  else
    -- `source_repo` is a local of `run_all` (assigned only at line 745),
    -- so it is still unbound when line 723 reads it:
    match (none : Option Unit) with
    -- line 723: `logs_dir = source_repo / "parallel_logs"` reads the local
    | none => ([], some (.unboundLocal "source_repo".data))
    | some _ =>
      -- lines 724–733: mkdir parallel_logs, write run_manifest.json;
      -- line 745: source_repo = Path.cwd().resolve();
      -- line 746: workdir.mkdir(...);
      -- lines 749–753: rmtree parallel_logs (deleting run_manifest.json),
      --   then recreate it empty;
      -- lines 759–764: create the asyncio tasks (scheduling begins)
      ([.mkdirParallelLogs, .writeRunManifest, .mkdirWorkdir,
        .rmtreeParallelLogs, .mkdirParallelLogs, .scheduleJobs], none)

/-- C1 (code bug).  For every config whose planner produces at least one
job, `run_all` raises `UnboundLocalError` on `source_repo` at line 723
before any filesystem event: the run manifest is never written (and, even
if `source_repo` were bound there, lines 749–753 would delete
`parallel_logs/` — manifest included — before scheduling begins). -/
theorem run_manifest_never_written (cfg : Config)
    (h : generate_jobs cfg ≠ []) :
    run_all_prelude cfg = ([], some (.unboundLocal "source_repo".data)) ∧
    RAEvent.writeRunManifest ∉ (run_all_prelude cfg).1 := by
  have hne : (generate_jobs cfg).isEmpty = false := by
    cases hj : generate_jobs cfg with
    | nil => exact absurd hj h
    | cons a t => rfl
  constructor
  · unfold run_all_prelude
    rw [hne]
    rfl
  · unfold run_all_prelude
    rw [hne]
    simp

/-- Witness for `run_manifest_never_written` at a concrete one-job config. -/
theorem run_manifest_never_written_witness :
    generate_jobs cfgIntBounty ≠ [] ∧
    run_all_prelude cfgIntBounty =
      ([], some (.unboundLocal "source_repo".data)) := by
  refine ⟨by decide, ?_⟩
  exact (run_manifest_never_written cfgIntBounty (by decide)).1

/-! ### The per-job pipeline (`run_job`, lines 523–671)

`run_job` is a `try/except/finally` over effectful steps.  The model
abstracts the outside world as a `JobWorld` oracle saying which steps
raise and what the child exit code is, and produces the final status
together with the ordered list of performed actions. -/

/-- Final job status as stored in the result dict. -/
inductive JobStatus where
  | pending | running | completed | failed | error
deriving DecidableEq, Repr

/-- Actions `run_job` can perform, in the order they would be executed. -/
inductive JEvent where
  | clone | patch | netCreate | spawnChild
  | collectLogs
  | composeDown | rmProjectContainers | rmNetworkContainers | destroyNetwork
  | removeClone
deriving DecidableEq, Repr

/-- Oracle for the effectful steps of one job. -/
structure JobWorld where
  cloneRaises : Bool        -- step 1, `create_clone`
  patchRaises : Bool        -- step 2, `patch_clone_for_isolation`
  netCreateRaises : Bool    -- step 3, `create_job_network`
  spawnRaises : Bool        -- step 7, `create_subprocess_exec`
  childExit : Int           -- child exit code when the spawn succeeded
  cloneExistsAfter : Bool   -- `clone_dir.exists()` at collection time
deriving DecidableEq, Repr

/-- `run_job` (lines 548–669): the `try` body runs steps in order stopping
at the first raise (which the `except` turns into status `error`); the
`finally` block collects logs only when `clone_dir` is set and the
directory exists, then tears down compose projects, containers and the
network, and removes the clone unless `keep_clones`. -/
def run_job_model (w : JobWorld) (keep_clones : Bool) :
    JobStatus × List JEvent :=
  let tryPart : JobStatus × Bool × List JEvent :=
    if w.cloneRaises then (.error, false, [])
    else if w.patchRaises then (.error, true, [.clone])
    else if w.netCreateRaises then (.error, true, [.clone, .patch])
    else if w.spawnRaises then (.error, true, [.clone, .patch, .netCreate])
    else ((if w.childExit = 0 then .completed else .failed), true,
          [.clone, .patch, .netCreate, .spawnChild])
  let cloneSet := tryPart.2.1
  (tryPart.1,
    tryPart.2.2
    ++ (if cloneSet && w.cloneExistsAfter then [JEvent.collectLogs] else [])
    ++ (if cloneSet then [JEvent.composeDown] else [])
    ++ [JEvent.rmProjectContainers, JEvent.rmNetworkContainers,
        JEvent.destroyNetwork]
    ++ (if cloneSet && !keep_clones then [JEvent.removeClone] else []))

/-- The teardown actions of the `finally` block. -/
def isTeardown : JEvent → Bool
  | .composeDown | .rmProjectContainers | .rmNetworkContainers
  | .destroyNetwork | .removeClone => true
  | _ => false

/-- `collectLogs` occurs, and no teardown action precedes it. -/
def logsCollectedBeforeTeardown (ev : List JEvent) : Bool :=
  ev.contains .collectLogs &&
    (ev.takeWhile (· ≠ JEvent.collectLogs)).all fun e => !isTeardown e

/-- C5 (amended).  On every exit path of `run_job` on which the clone step
succeeded and the clone directory still exists — child exit 0, child
non-zero exit, or an exception in any later pipeline step — the logs are
collected, and before any teardown action.  (When the clone step itself
raises, `clone_dir` is still `None` and collection is skipped: see the
counterexample.) -/
theorem logs_collected_on_every_exit_path (w : JobWorld) (keep_clones : Bool)
    (h1 : w.cloneRaises = false) (h2 : w.cloneExistsAfter = true) :
    logsCollectedBeforeTeardown (run_job_model w keep_clones).2 = true := by
  obtain ⟨cr, pr, nr, sr, ex, ce⟩ := w
  cases cr
  · cases pr <;> cases nr <;> cases sr <;> cases ce <;>
      simp_all [run_job_model, logsCollectedBeforeTeardown, isTeardown]
  · cases h1

/-- Witness for `logs_collected_on_every_exit_path`: a job whose child
spawn raised mid-pipeline still collects logs before teardown. -/
theorem logs_collected_on_every_exit_path_witness :
    logsCollectedBeforeTeardown
      (run_job_model
        { cloneRaises := false, patchRaises := false, netCreateRaises := false,
          spawnRaises := true, childExit := 0, cloneExistsAfter := true }
        false).2 = true :=
  logs_collected_on_every_exit_path _ false rfl rfl

/-- C5 counterexample: when the clone step itself raises, `clone_dir` is
never assigned, so the `finally` block skips log collection entirely while
the teardown actions still run — the claim's "including the clone step"
does not hold of the code. -/
theorem logs_not_collected_when_clone_raises :
    JEvent.collectLogs ∉
      (run_job_model
        { cloneRaises := true, patchRaises := false, netCreateRaises := false,
          spawnRaises := false, childExit := 0, cloneExistsAfter := true }
        false).2 ∧
    JEvent.destroyNetwork ∈
      (run_job_model
        { cloneRaises := true, patchRaises := false, netCreateRaises := false,
          spawnRaises := false, childExit := 0, cloneExistsAfter := true }
        false).2 := by
  decide

/-! ### Summary and process exit code (`run_all`, lines 774–802) -/

/-- Lines 777–779 and 801–802: count `failed` and `error` results and exit
with code 1 exactly when there is at least one, else 0. -/
def summary_exit_code (results : List JobStatus) : Nat :=
  if results.countP (· = JobStatus.failed) +
      results.countP (· = JobStatus.error) > 0
  then 1 else 0

/-- Every `run_job` result status is `completed`, `failed` or `error`. -/
theorem run_job_status_closure (w : JobWorld) (keep_clones : Bool) :
    (run_job_model w keep_clones).1 = .completed ∨
    (run_job_model w keep_clones).1 = .failed ∨
    (run_job_model w keep_clones).1 = .error := by
  obtain ⟨cr, pr, nr, sr, ex, ce⟩ := w
  by_cases hex : ex = 0 <;>
    cases cr <;> cases pr <;> cases nr <;> cases sr <;>
      simp_all [run_job_model]

/-- The exit decision depends only on whether any `failed`/`error` status
is present. -/
theorem summary_exit_code_eq_zero_iff (results : List JobStatus) :
    summary_exit_code results = 0 ↔
      results.countP (· = JobStatus.failed) +
        results.countP (· = JobStatus.error) = 0 := by
  unfold summary_exit_code
  split
  · constructor
    · intro h
      cases h
    · omega
  · constructor
    · intro _
      omega
    · intro _
      rfl

/-- C6.  For runs reaching the summary, the process exit code is 0 iff
every aggregated job result has status `completed`: the results are
exactly the statuses produced by `run_job`, which are always one of
`completed`/`failed`/`error`, and the exit code is 1 exactly when a
`failed` or `error` status is present. -/
theorem exit_code_zero_iff_all_completed (ws : List (JobWorld × Bool)) :
    summary_exit_code (ws.map fun p => (run_job_model p.1 p.2).1) = 0 ↔
      ∀ s ∈ ws.map (fun p => (run_job_model p.1 p.2).1), s = JobStatus.completed := by
  rw [summary_exit_code_eq_zero_iff, Nat.add_eq_zero]
  rw [List.countP_eq_zero, List.countP_eq_zero]
  simp only [decide_eq_true_eq]
  constructor
  · rintro ⟨hf, he⟩ s hs
    obtain ⟨p, hp, rfl⟩ := List.mem_map.mp hs
    rcases run_job_status_closure p.1 p.2 with h' | h' | h'
    · exact h'
    · exact absurd h' (hf _ hs)
    · exact absurd h' (he _ hs)
  · intro h
    constructor
    · intro s hs
      rw [h s hs]
      simp
    · intro s hs
      rw [h s hs]
      simp

/-! ### Clone creation (`create_clone`, lines 143–179, POSIX branch)

On non-Windows hosts the clone is produced by
`shutil.copytree(source_repo, clone_dir, symlinks=True, ignore=_ignore)`,
where `_ignore` (lines 151–157) returns every entry of a directory listing
whose *name* is in `CLONE_SKIP_DIRS` — regardless of whether that entry is
a directory, a file or a symlink.  `symlinks=True` copies symbolic links
as links.  A file tree is modelled as a mutual inductive so that all
recursions are structural. -/

mutual
inductive FSTree where
  | file (content : List Char)
  | symlink (target : List Char)
  | dir (entries : FSEntries)

inductive FSEntries where
  | nil
  | cons (name : List Char) (t : FSTree) (rest : FSEntries)
end

/-- `CLONE_SKIP_DIRS` (line 60). -/
def CLONE_SKIP_DIRS : List (List Char) :=
  ["venv".data, ".venv".data, "node_modules".data, "__pycache__".data,
   ".mypy_cache".data]

mutual
/-- `shutil.copytree(..., symlinks=True, ignore=_ignore)`: recursive copy
that keeps symlinks as links and drops every entry whose name `_ignore`
returned, i.e. any entry whose basename is in `CLONE_SKIP_DIRS`. -/
def copytreeIgnore : FSTree → FSTree
  | .file c => .file c
  | .symlink t => .symlink t
  | .dir es => .dir (copyEntries es)

def copyEntries : FSEntries → FSEntries
  | .nil => .nil
  | .cons n t rest =>
    if n ∈ CLONE_SKIP_DIRS then copyEntries rest
    else .cons n (copytreeIgnore t) (copyEntries rest)
end

/-- `create_clone` (POSIX branch): the clone lives at
`workdir / f"bb_job_{job_id}"` and is the ignore-filtered copy. -/
def create_clone (source : FSTree) (workdir job_id : List Char) :
    List Char × FSTree :=
  (workdir ++ "/bb_job_".data ++ job_id, copytreeIgnore source)

mutual
/-- Follow a path of entry names down a tree. -/
def lookupPath : FSTree → List (List Char) → Option FSTree
  | t, [] => some t
  | .dir es, n :: p => lookupEntryPath es n p
  | .file _, _ :: _ => none
  | .symlink _, _ :: _ => none

def lookupEntryPath : FSEntries → List Char → List (List Char) → Option FSTree
  | .nil, _, _ => none
  | .cons n' t rest, n, p =>
    if n' = n then lookupPath t p else lookupEntryPath rest n p
end

/-- Whether a tree node is a directory. -/
def isDirB : FSTree → Bool
  | .dir _ => true
  | _ => false

mutual
/-- The claim's reading of the exclusion rule: only *directories* with a
skip-set basename are excluded (files and symlinks with such names are
kept).  This definition follows the claim's words, for comparison with
`copytreeIgnore`, which is translated from the code. -/
def specCopyDirsOnly : FSTree → FSTree
  | .file c => .file c
  | .symlink t => .symlink t
  | .dir es => .dir (specCopyEntriesDirsOnly es)

def specCopyEntriesDirsOnly : FSEntries → FSEntries
  | .nil => .nil
  | .cons n t rest =>
    if n ∈ CLONE_SKIP_DIRS ∧ isDirB t = true then
      specCopyEntriesDirsOnly rest
    else .cons n (specCopyDirsOnly t) (specCopyEntriesDirsOnly rest)
end



/-- A source tree holding a regular *file* named `venv` and a `.git`
symlink. -/
def srcWithVenvFile : FSTree :=
  .dir (.cons "venv".data (.file "data".data)
    (.cons ".git".data (.symlink "/repo/.git".data) .nil))

/-- C9 counterexample: the code's clone drops a regular *file* named
`venv` (the `_ignore` callback filters by name only), while the claim —
"exactly the directories with basename …" — would keep it; the `.git`
symlink is preserved as a link either way. -/
theorem clone_excludes_venv_file :
    lookupPath srcWithVenvFile ["venv".data] = some (.file "data".data) ∧
    lookupPath (create_clone srcWithVenvFile "/tmp".data "ab".data).2
      ["venv".data] = none ∧
    lookupPath (specCopyDirsOnly srcWithVenvFile) ["venv".data] =
      some (.file "data".data) ∧
    lookupPath (create_clone srcWithVenvFile "/tmp".data "ab".data).2
      [".git".data] = some (.symlink "/repo/.git".data) := by
  refine ⟨rfl, ?_, ?_, ?_⟩ <;>
    simp [create_clone, srcWithVenvFile, copytreeIgnore, copyEntries,
      specCopyDirsOnly, specCopyEntriesDirsOnly, lookupPath, lookupEntryPath,
      CLONE_SKIP_DIRS]

theorem lookupEntryPath_copyEntries_skip (es : FSEntries) (n : List Char)
    (hn : n ∈ CLONE_SKIP_DIRS) (q : List (List Char)) :
    lookupEntryPath (copyEntries es) n q = none := by
  cases es with
  | nil => rfl
  | cons n' t rest =>
    by_cases h : n' ∈ CLONE_SKIP_DIRS
    · rw [show copyEntries (.cons n' t rest) = copyEntries rest by
        simp [copyEntries, h]]
      exact lookupEntryPath_copyEntries_skip rest n hn q
    · rw [show copyEntries (.cons n' t rest) =
          .cons n' (copytreeIgnore t) (copyEntries rest) by
        simp [copyEntries, h]]
      have hne : n' ≠ n := fun he => h (he ▸ hn)
      rw [show lookupEntryPath (.cons n' (copytreeIgnore t) (copyEntries rest)) n q =
          lookupEntryPath (copyEntries rest) n q by
        simp [lookupEntryPath, hne]]
      exact lookupEntryPath_copyEntries_skip rest n hn q

mutual
theorem lookupPath_copytreeIgnore (src : FSTree) (p : List (List Char))
    (hp : ∀ n ∈ p, n ∉ CLONE_SKIP_DIRS) :
    lookupPath (copytreeIgnore src) p =
      (lookupPath src p).map copytreeIgnore := by
  cases src with
  | file c => cases p <;> rfl
  | symlink t => cases p <;> rfl
  | dir es =>
    cases p with
    | nil => rfl
    | cons n p' =>
      exact lookupEntryPath_copyEntries es n p' (hp n (by simp))
        (fun m hm => hp m (by simp [hm]))

theorem lookupEntryPath_copyEntries (es : FSEntries) (n : List Char)
    (p' : List (List Char)) (hn : n ∉ CLONE_SKIP_DIRS)
    (hp' : ∀ m ∈ p', m ∉ CLONE_SKIP_DIRS) :
    lookupEntryPath (copyEntries es) n p' =
      (lookupEntryPath es n p').map copytreeIgnore := by
  cases es with
  | nil => rfl
  | cons n' t rest =>
    by_cases h : n' ∈ CLONE_SKIP_DIRS
    · rw [show copyEntries (.cons n' t rest) = copyEntries rest by
        simp [copyEntries, h]]
      have hne : n' ≠ n := fun he => hn (he ▸ h)
      rw [show lookupEntryPath (.cons n' t rest) n p' =
          lookupEntryPath rest n p' by simp [lookupEntryPath, hne]]
      exact lookupEntryPath_copyEntries rest n p' hn hp'
    · rw [show copyEntries (.cons n' t rest) =
          .cons n' (copytreeIgnore t) (copyEntries rest) by
        simp [copyEntries, h]]
      by_cases he : n' = n
      · rw [show lookupEntryPath
            (.cons n' (copytreeIgnore t) (copyEntries rest)) n p' =
            lookupPath (copytreeIgnore t) p' by simp [lookupEntryPath, he],
          show lookupEntryPath (.cons n' t rest) n p' = lookupPath t p' by
            simp [lookupEntryPath, he]]
        exact lookupPath_copytreeIgnore t p' hp'
      · rw [show lookupEntryPath
            (.cons n' (copytreeIgnore t) (copyEntries rest)) n p' =
            lookupEntryPath (copyEntries rest) n p' by
            simp [lookupEntryPath, he],
          show lookupEntryPath (.cons n' t rest) n p' =
            lookupEntryPath rest n p' by simp [lookupEntryPath, he]]
        exact lookupEntryPath_copyEntries rest n p' hn hp'
end

mutual
theorem lookupPath_copytreeIgnore_skip (src : FSTree) (p : List (List Char))
    (n : List Char) (hn : n ∈ CLONE_SKIP_DIRS) :
    lookupPath (copytreeIgnore src) (p ++ [n]) = none := by
  cases src with
  | file c => cases p <;> rfl
  | symlink t => cases p <;> rfl
  | dir es =>
    cases p with
    | nil => exact lookupEntryPath_copyEntries_skip es n hn []
    | cons m p' => exact lookupEntryPath_copyEntries_skip_deep es m p' n hn

theorem lookupEntryPath_copyEntries_skip_deep (es : FSEntries)
    (m : List Char) (p' : List (List Char)) (n : List Char)
    (hn : n ∈ CLONE_SKIP_DIRS) :
    lookupEntryPath (copyEntries es) m (p' ++ [n]) = none := by
  cases es with
  | nil => rfl
  | cons n' t rest =>
    by_cases h : n' ∈ CLONE_SKIP_DIRS
    · rw [show copyEntries (.cons n' t rest) = copyEntries rest by
        simp [copyEntries, h]]
      exact lookupEntryPath_copyEntries_skip_deep rest m p' n hn
    · rw [show copyEntries (.cons n' t rest) =
          .cons n' (copytreeIgnore t) (copyEntries rest) by
        simp [copyEntries, h]]
      by_cases he : n' = m
      · rw [show lookupEntryPath
            (.cons n' (copytreeIgnore t) (copyEntries rest)) m (p' ++ [n]) =
            lookupPath (copytreeIgnore t) (p' ++ [n]) by
            simp [lookupEntryPath, he]]
        exact lookupPath_copytreeIgnore_skip t p' n hn
      · rw [show lookupEntryPath
            (.cons n' (copytreeIgnore t) (copyEntries rest)) m (p' ++ [n]) =
            lookupEntryPath (copyEntries rest) m (p' ++ [n]) by
            simp [lookupEntryPath, he]]
        exact lookupEntryPath_copyEntries_skip_deep rest m p' n hn
end

/-- C9 (amended).  The clone is created at `<workdir>/bb_job_<JobId>`;
every entry reachable along a path avoiding the skip basenames is copied
(with its subtree recursively filtered), symbolic links — including a
`.git` that is a symlink — are preserved as links, and exactly the
*entries* (of any kind, directories or files) with basename `venv`,
`.venv`, `node_modules`, `__pycache__`, `.mypy_cache` are excluded
wherever they occur. -/
theorem create_clone_characterization (src : FSTree)
    (workdir job_id : List Char) (p : List (List Char))
    (hp : ∀ n ∈ p, n ∉ CLONE_SKIP_DIRS) :
    (create_clone src workdir job_id).1 = workdir ++ "/bb_job_".data ++ job_id ∧
    lookupPath (create_clone src workdir job_id).2 p =
      (lookupPath src p).map copytreeIgnore ∧
    (∀ tgt, lookupPath src p = some (.symlink tgt) →
      lookupPath (create_clone src workdir job_id).2 p =
        some (.symlink tgt)) ∧
    (∀ (q : List (List Char)) (n : List Char), n ∈ CLONE_SKIP_DIRS →
      lookupPath (create_clone src workdir job_id).2 (q ++ [n]) = none) := by
  refine ⟨rfl, lookupPath_copytreeIgnore src p hp, fun tgt htgt => ?_,
    fun q n hn => lookupPath_copytreeIgnore_skip src q n hn⟩
  rw [show (create_clone src workdir job_id).2 = copytreeIgnore src from rfl,
    lookupPath_copytreeIgnore src p hp, htgt]
  rfl

/-- Witness for `create_clone_characterization`: the `.git` symlink of
`srcWithVenvFile` survives cloning as a link. -/
theorem create_clone_characterization_witness :
    lookupPath (create_clone srcWithVenvFile "/tmp".data "ab".data).2
      [".git".data] = some (.symlink "/repo/.git".data) :=
  ((create_clone_characterization srcWithVenvFile "/tmp".data "ab".data
      [".git".data] (by decide)).2.2.1 "/repo/.git".data (by rfl))

/-! ### Core lemmas about `prefixL`, `containsL` and `replaceAll`

These support the analysis of the Isolation Rewriter (claims about
`patch_clone_for_isolation`). -/

theorem prefixL_nil (s : List Char) : prefixL [] s = true := by
  cases s <;> rfl

theorem prefixL_cons {a b : Char} {as bs : List Char} :
    prefixL (a :: as) (b :: bs) = true ↔ a = b ∧ prefixL as bs = true := by
  simp [prefixL]

theorem prefixL_cons_nil {a : Char} {as : List Char} :
    prefixL (a :: as) [] = false := rfl

theorem eq_nil_of_prefixL_nil {p : List Char} (h : prefixL p [] = true) :
    p = [] := by
  cases p with
  | nil => rfl
  | cons a as => cases h

theorem prefixL_self (p : List Char) : prefixL p p = true := by
  induction p with
  | nil => rfl
  | cons a as ih => exact prefixL_cons.mpr ⟨rfl, ih⟩

theorem prefixL_append_right {p s : List Char} (t : List Char)
    (h : prefixL p s = true) : prefixL p (s ++ t) = true := by
  induction p generalizing s with
  | nil => exact prefixL_nil _
  | cons a as ih =>
    cases s with
    | nil => cases h
    | cons b bs =>
      obtain ⟨rfl, h'⟩ := prefixL_cons.mp h
      exact prefixL_cons.mpr ⟨rfl, ih h'⟩

theorem prefixL_take_of_append {p w v : List Char}
    (h : prefixL p (w ++ v) = true) :
    prefixL (p.take w.length) w = true := by
  induction w generalizing p with
  | nil => exact prefixL_nil _
  | cons b bs ih =>
    cases p with
    | nil => exact prefixL_nil _
    | cons a as =>
      obtain ⟨rfl, h'⟩ := prefixL_cons.mp h
      exact prefixL_cons.mpr ⟨rfl, ih h'⟩

/-- `prefixL p (u ++ v)` splits depending on whether `p` fits inside `u`. -/
theorem prefixL_append_cases {p u v : List Char}
    (h : prefixL p (u ++ v) = true) :
    prefixL p u = true ∨
      (u.length < p.length ∧ prefixL (p.take u.length) u = true ∧
        prefixL (p.drop u.length) v = true) := by
  induction u generalizing p with
  | nil =>
    cases p with
    | nil => exact Or.inl rfl
    | cons a as => exact Or.inr ⟨Nat.succ_pos _, prefixL_nil _, h⟩
  | cons b bs ih =>
    cases p with
    | nil => exact Or.inl (prefixL_nil _)
    | cons a as =>
      obtain ⟨rfl, h'⟩ := prefixL_cons.mp h
      rcases ih h' with h'' | ⟨hlen, ht, hd⟩
      · exact Or.inl (prefixL_cons.mpr ⟨rfl, h''⟩)
      · exact Or.inr ⟨Nat.succ_lt_succ hlen,
          prefixL_cons.mpr ⟨rfl, ht⟩, hd⟩

theorem mem_of_prefixL {p s : List Char} (h : prefixL p s = true) :
    ∀ c ∈ p, c ∈ s := by
  induction p generalizing s with
  | nil => intro c hc; cases hc
  | cons a as ih =>
    cases s with
    | nil => cases h
    | cons b bs =>
      obtain ⟨rfl, h'⟩ := prefixL_cons.mp h
      intro c hc
      rcases List.mem_cons.mp hc with rfl | hc'
      · exact List.mem_cons_self _ _
      · exact List.mem_cons_of_mem _ (ih h' c hc')

theorem containsL_nil (p : List Char) : containsL p [] = p.isEmpty := rfl

theorem containsL_cons (p : List Char) (c : Char) (cs : List Char) :
    containsL p (c :: cs) = (prefixL p (c :: cs) || containsL p cs) := rfl

theorem containsL_nil_left (s : List Char) : containsL [] s = true := by
  cases s with
  | nil => rfl
  | cons c cs => simp [containsL, prefixL_nil]

theorem containsL_of_prefixL {p s : List Char} (h : prefixL p s = true) :
    containsL p s = true := by
  cases s with
  | nil => rw [containsL_nil, List.isEmpty_iff.mpr (eq_nil_of_prefixL_nil h)]
  | cons c cs => simp [containsL_cons, h]

theorem containsL_cons_of_containsL {p : List Char} (c : Char)
    {cs : List Char} (h : containsL p cs = true) :
    containsL p (c :: cs) = true := by
  simp [containsL_cons, h]

theorem containsL_eq_false_tail {p : List Char} {c : Char} {cs : List Char}
    (h : containsL p (c :: cs) = false) : containsL p cs = false := by
  rw [containsL_cons] at h
  exact (Bool.or_eq_false_iff.mp h).2

theorem containsL_append_left (u : List Char) {p v : List Char}
    (h : containsL p v = true) : containsL p (u ++ v) = true := by
  induction u with
  | nil => exact h
  | cons c u' ih => exact containsL_cons_of_containsL c ih

theorem containsL_append_right {p v : List Char} (u : List Char)
    (h : containsL p v = true) : containsL p (v ++ u) = true := by
  induction v with
  | nil =>
    rw [containsL_nil, List.isEmpty_iff] at h
    subst h
    exact containsL_nil_left _
  | cons c cs ih =>
    rw [containsL_cons] at h
    rcases Bool.or_eq_true_iff.mp h with h' | h'
    · exact containsL_of_prefixL (by
        rw [show (c :: cs) ++ u = c :: (cs ++ u) from rfl]
        exact prefixL_append_right u h')
    · exact containsL_cons_of_containsL c (ih h')

theorem containsL_of_infix {p v pre post : List Char}
    (h : containsL p v = true) :
    containsL p (pre ++ v ++ post) = true := by
  rw [List.append_assoc]
  exact containsL_append_left pre (containsL_append_right post h)

theorem mem_of_containsL {p s : List Char} (h : containsL p s = true) :
    ∀ c ∈ p, c ∈ s := by
  induction s with
  | nil =>
    rw [containsL_nil, List.isEmpty_iff] at h
    subst h
    intro c hc
    cases hc
  | cons b bs ih =>
    rw [containsL_cons] at h
    rcases Bool.or_eq_true_iff.mp h with h' | h'
    · exact mem_of_prefixL h'
    · intro c hc
      exact List.mem_cons_of_mem _ (ih h' c hc)

/-- Lemma A: an occurrence of `a :: p'` in `u ++ v` with `a ∉ u` must lie
entirely in the right part. -/
theorem containsL_append_elim {a : Char} {p' : List Char} (u : List Char)
    {v : List Char} (ha : a ∉ u)
    (h : containsL (a :: p') (u ++ v) = true) :
    containsL (a :: p') v = true := by
  induction u with
  | nil => exact h
  | cons c u' ih =>
    rw [show (c :: u') ++ v = c :: (u' ++ v) from rfl, containsL_cons] at h
    rcases Bool.or_eq_true_iff.mp h with h' | h'
    · obtain ⟨rfl, -⟩ := prefixL_cons.mp h'
      exact absurd (List.mem_cons_self _ _) ha
    · exact ih (fun hm => ha (List.mem_cons_of_mem _ hm)) h'

/-- Contrapositive form of Lemma A, used to build absence facts. -/
theorem containsL_append_eq_false {a : Char} {p' : List Char}
    (u : List Char) {v : List Char} (ha : a ∉ u)
    (h : containsL (a :: p') v = false) :
    containsL (a :: p') (u ++ v) = false := by
  cases hc : containsL (a :: p') (u ++ v) with
  | false => rfl
  | true => rw [containsL_append_elim u ha hc] at h; cases h

/-- Exact three-way decomposition of an occurrence in `u ++ v`: inside
`u`, inside `v`, or genuinely straddling the border. -/
theorem containsL_append_cases {p : List Char} (u : List Char)
    {v : List Char} (h : containsL p (u ++ v) = true) :
    containsL p u = true ∨ containsL p v = true ∨
      (∃ j < u.length, u.length - j < p.length ∧
        prefixL (p.take (u.length - j)) (u.drop j) = true ∧
        prefixL (p.drop (u.length - j)) v = true) := by
  induction u with
  | nil => exact Or.inr (Or.inl h)
  | cons c u' ih =>
    rw [show (c :: u') ++ v = c :: (u' ++ v) from rfl, containsL_cons] at h
    rcases Bool.or_eq_true_iff.mp h with h' | h'
    · rcases prefixL_append_cases (p := p) (u := c :: u') (v := v) h' with
        h'' | ⟨hlen, ht, hd⟩
      · exact Or.inl (containsL_of_prefixL h'')
      · refine Or.inr (Or.inr ⟨0, by simp, by simpa using hlen, ?_, ?_⟩)
        · simpa using ht
        · simpa using hd
    · rcases ih h' with h'' | h'' | ⟨j, hj, hlen, ht, hd⟩
      · exact Or.inl (containsL_cons_of_containsL c h'')
      · exact Or.inr (Or.inl h'')
      · refine Or.inr (Or.inr ⟨j + 1, by simpa using hj, ?_, ?_, ?_⟩)
        · simpa [Nat.succ_sub_succ] using hlen
        · simpa [Nat.succ_sub_succ] using ht
        · simpa [Nat.succ_sub_succ] using hd

theorem replaceAllF_zero (p r s : List Char) : replaceAllF p r 0 s = s := rfl

theorem replaceAllF_nil (p r : List Char) (f : Nat) :
    replaceAllF p r (f + 1) [] = [] := rfl

theorem replaceAllF_cons_pos {p : List Char} (r : List Char) {c : Char}
    {cs : List Char} (f : Nat) (h : prefixL p (c :: cs) = true) :
    replaceAllF p r (f + 1) (c :: cs) =
      r ++ replaceAllF p r f (List.drop (p.length - 1) cs) := by
  simp [replaceAllF, h]

theorem replaceAllF_cons_neg {p : List Char} (r : List Char) {c : Char}
    {cs : List Char} (f : Nat) (h : prefixL p (c :: cs) = false) :
    replaceAllF p r (f + 1) (c :: cs) = c :: replaceAllF p r f cs := by
  simp [replaceAllF, h]

/-- Strict prefix transfer: when every suffix of `lit` fails to start `r`,
a `lit`-suffix prefix of the replaced text was already a prefix of the
original text.  (Used with `lit` different from the replaced pattern.) -/
theorem prefixL_drop_replaceAllF_strict (pB : List Char) {r lit : List Char}
    (hside : ∀ i, i < lit.length →
      prefixL ((lit.drop i).take r.length) r = false) :
    ∀ (f : Nat) (t : List Char) (i : Nat),
      prefixL (lit.drop i) (replaceAllF pB r f t) = true →
      prefixL (lit.drop i) t = true := by
  intro f
  induction f with
  | zero => intro t i h; exact h
  | succ f ih =>
    intro t i h
    cases t with
    | nil =>
      rw [replaceAllF_nil] at h
      rw [eq_nil_of_prefixL_nil h]
      exact prefixL_nil _
    | cons c cs =>
      by_cases hpre : prefixL pB (c :: cs) = true
      · rw [replaceAllF_cons_pos r f hpre] at h
        by_cases hi : i < lit.length
        · have htr := prefixL_take_of_append h
          rw [hside i hi] at htr
          cases htr
        · rw [List.drop_of_length_le (Nat.le_of_not_lt hi)]
          exact prefixL_nil _
      · rw [replaceAllF_cons_neg r f
          (Bool.eq_false_iff.mpr (fun hx => hpre hx))] at h
        cases hd : lit.drop i with
        | nil => exact prefixL_nil _
        | cons d rest =>
          rw [hd] at h
          obtain ⟨rfl, hrest⟩ := prefixL_cons.mp h
          have hrest' : rest = lit.drop (i + 1) := by
            have := congrArg List.tail hd
            simpa [List.tail_drop] using this.symm
          refine prefixL_cons.mpr ⟨rfl, ?_⟩
          have := ih cs (i + 1) (by rw [← hrest']; exact hrest)
          rw [← hrest'] at this
          exact this

/-- Self prefix transfer: like the strict version but for `lit = p`
itself, where the position-0 case is rescued by the match branch. -/
theorem prefixL_drop_replaceAllF_self {p r : List Char}
    (hside : ∀ i, 1 ≤ i → i < p.length →
      prefixL ((p.drop i).take r.length) r = false) :
    ∀ (f : Nat) (t : List Char) (i : Nat),
      prefixL (p.drop i) (replaceAllF p r f t) = true →
      prefixL (p.drop i) t = true := by
  intro f
  induction f with
  | zero => intro t i h; exact h
  | succ f ih =>
    intro t i h
    cases t with
    | nil =>
      rw [replaceAllF_nil] at h
      rw [eq_nil_of_prefixL_nil h]
      exact prefixL_nil _
    | cons c cs =>
      by_cases hpre : prefixL p (c :: cs) = true
      · rcases Nat.eq_zero_or_pos i with rfl | hi1
        · simpa using hpre
        · by_cases hi : i < p.length
          · rw [replaceAllF_cons_pos r f hpre] at h
            have htr := prefixL_take_of_append h
            rw [hside i hi1 hi] at htr
            cases htr
          · rw [List.drop_of_length_le (Nat.le_of_not_lt hi)]
            exact prefixL_nil _
      · rw [replaceAllF_cons_neg r f
          (Bool.eq_false_iff.mpr (fun hx => hpre hx))] at h
        cases hd : p.drop i with
        | nil => exact prefixL_nil _
        | cons d rest =>
          rw [hd] at h
          obtain ⟨rfl, hrest⟩ := prefixL_cons.mp h
          have hrest' : rest = p.drop (i + 1) := by
            have := congrArg List.tail hd
            simpa [List.tail_drop] using this.symm
          refine prefixL_cons.mpr ⟨rfl, ?_⟩
          have := ih cs (i + 1) (by rw [← hrest']; exact hrest)
          rw [← hrest'] at this
          exact this

/-- Discharge the strict side condition when `r` starts with a character
not occurring in `lit`. -/
theorem hside_strict_of_head_notin {lit : List Char} {rh : Char}
    (r' : List Char) (hrh : rh ∉ lit) :
    ∀ i, i < lit.length →
      prefixL ((lit.drop i).take (rh :: r').length) (rh :: r') = false := by
  intro i hi
  cases hd : lit.drop i with
  | nil =>
    exfalso
    have := List.length_drop i lit
    rw [hd] at this
    simp at this
    omega
  | cons d rest =>
    have hd_mem : d ∈ lit := by
      have : d ∈ lit.drop i := by rw [hd]; exact List.mem_cons_self _ _
      exact List.mem_of_mem_drop this
    rw [show ((d :: rest).take (rh :: r').length) =
        d :: rest.take r'.length by simp]
    cases hp : prefixL (d :: rest.take r'.length) (rh :: r') with
    | false => rfl
    | true =>
      obtain ⟨rfl, -⟩ := prefixL_cons.mp hp
      exact absurd hd_mem hrh

/-- Discharge the self side condition (positions `1 ≤ i < |p|`) the same
way. -/
theorem hside_self_of_head_notin (p : List Char) (rh : Char)
    (r' : List Char) (hrh : rh ∉ p) :
    ∀ i, 1 ≤ i → i < p.length →
      prefixL ((p.drop i).take (rh :: r').length) (rh :: r') = false :=
  fun i _ hi => hside_strict_of_head_notin r' hrh i hi

theorem containsL_nil_of_ne {p : List Char} (hp : p ≠ []) :
    containsL p [] = false := by
  cases p with
  | nil => exact absurd rfl hp
  | cons a as => rfl

theorem containsL_drop_of_containsL {p l : List Char} (n : Nat)
    (h : containsL p (l.drop n) = true) : containsL p l = true := by
  have := containsL_append_left (l.take n) h
  rwa [List.take_append_drop] at this

theorem containsL_drop_eq_false {p l : List Char} (n : Nat)
    (h : containsL p l = false) : containsL p (l.drop n) = false := by
  cases hc : containsL p (l.drop n) with
  | false => rfl
  | true => rw [containsL_drop_of_containsL n hc] at h; cases h

theorem prefixL_append_compose {A B s : List Char}
    (hA : prefixL A s = true) (hB : prefixL B (s.drop A.length) = true) :
    prefixL (A ++ B) s = true := by
  induction A generalizing s with
  | nil => simpa using hB
  | cons a as ih =>
    cases s with
    | nil => cases hA
    | cons b bs =>
      obtain ⟨rfl, hA'⟩ := prefixL_cons.mp hA
      exact prefixL_cons.mpr ⟨rfl, ih hA' (by simpa using hB)⟩

/-- Discharge the straddle condition when the pattern's head does not
occur in the replacement. -/
theorem hstrad_of_head_notin {a : Char} {p' r : List Char} (ha : a ∉ r) :
    ∀ j, j < r.length →
      prefixL ((a :: p').take (r.length - j) ) (r.drop j) = false := by
  intro j hj
  obtain ⟨m, hm⟩ : ∃ m, r.length - j = m + 1 :=
    ⟨r.length - j - 1, by omega⟩
  rw [hm, List.take_succ_cons]
  cases hd : r.drop j with
  | nil =>
    exfalso
    have := List.length_drop j r
    rw [hd] at this
    simp at this
    omega
  | cons d rest =>
    have hd_mem : d ∈ r := by
      have : d ∈ r.drop j := by rw [hd]; exact List.mem_cons_self _ _
      exact List.mem_of_mem_drop this
    cases hp : prefixL (a :: (p'.take m)) (d :: rest) with
    | false => rfl
    | true =>
      obtain ⟨rfl, -⟩ := prefixL_cons.mp hp
      exact absurd hd_mem ha

/-- The only suffix of `core ++ [q]` beginning with `q` is `[q]` itself,
when `q ∉ core`. -/
theorem drop_core_append_q {core : List Char} {q d : Char} {rest : List Char}
    {i : Nat} (hq : q ∉ core) (hd : (core ++ [q]).drop i = d :: rest)
    (hdq : d = q) : rest = [] := by
  rw [List.drop_append_eq_append_drop] at hd
  cases he : core.drop i with
  | nil =>
    rw [he, List.nil_append] at hd
    rcases hi : i - core.length with - | m
    · rw [hi] at hd
      simpa using (List.cons.injEq _ _ _ _ ▸ hd).2.symm
    · rw [hi] at hd
      simp at hd
  | cons e es =>
    rw [he] at hd
    have : e = d := (List.cons.injEq _ _ _ _ ▸ hd).1
    have he_mem : e ∈ core := by
      have : e ∈ core.drop i := by rw [he]; exact List.mem_cons_self _ _
      exact List.mem_of_mem_drop this
    rw [this, hdq] at he_mem
    exact absurd he_mem hq

/-- Quote-edge prefix transfer, for the quoted patterns of the Python
rewrite: a suffix of `core ++ [q]` that prefixes the replaced text already
prefixed the original text. -/
theorem prefixL_drop_replaceAllF_quote {q : Char} {core : List Char}
    (net : List Char) (hq : q ∉ core) :
    ∀ (f : Nat) (t : List Char) (i : Nat),
      prefixL ((core ++ [q]).drop i)
        (replaceAllF (q :: (core ++ [q])) (q :: (net ++ [q])) f t) = true →
      prefixL ((core ++ [q]).drop i) t = true := by
  intro f
  induction f with
  | zero => intro t i h; exact h
  | succ f ih =>
    intro t i h
    cases t with
    | nil =>
      rw [replaceAllF_nil] at h
      rw [eq_nil_of_prefixL_nil h]
      exact prefixL_nil _
    | cons c cs =>
      by_cases hpre : prefixL (q :: (core ++ [q])) (c :: cs) = true
      · rw [replaceAllF_cons_pos _ f hpre] at h
        cases hd : (core ++ [q]).drop i with
        | nil => exact prefixL_nil _
        | cons d rest =>
          rw [hd] at h
          rw [show (q :: (net ++ [q])) ++
              replaceAllF (q :: (core ++ [q])) (q :: (net ++ [q])) f
                (List.drop ((q :: (core ++ [q])).length - 1) cs) =
              q :: ((net ++ [q]) ++
              replaceAllF (q :: (core ++ [q])) (q :: (net ++ [q])) f
                (List.drop ((q :: (core ++ [q])).length - 1) cs)) from rfl] at h
          obtain ⟨rfl, -⟩ := prefixL_cons.mp h
          have hrest : rest = [] := drop_core_append_q hq hd rfl
          subst hrest
          obtain ⟨rfl, -⟩ := prefixL_cons.mp hpre
          exact prefixL_cons.mpr ⟨rfl, prefixL_nil _⟩
      · rw [replaceAllF_cons_neg _ f
          (Bool.eq_false_iff.mpr (fun hx => hpre hx))] at h
        cases hd : (core ++ [q]).drop i with
        | nil => exact prefixL_nil _
        | cons d rest =>
          rw [hd] at h
          obtain ⟨rfl, hrest⟩ := prefixL_cons.mp h
          have hrest' : rest = (core ++ [q]).drop (i + 1) := by
            have := congrArg List.tail hd
            simpa [List.tail_drop] using this.symm
          refine prefixL_cons.mpr ⟨rfl, ?_⟩
          have := ih cs (i + 1) (by rw [← hrest']; exact hrest)
          rw [← hrest'] at this
          exact this

/-- Core absence lemma: replacing `p` by `r` leaves no occurrence of `p`,
under straddle-freeness conditions on `r`. -/
theorem containsL_replaceAllF_self {p r : List Char} (hp : p ≠ [])
    (hnr : containsL p r = false)
    (hstrad : ∀ j, j < r.length →
      prefixL (p.take (r.length - j)) (r.drop j) = false)
    (hside : ∀ i, 1 ≤ i → i < p.length →
      prefixL ((p.drop i).take r.length) r = false) :
    ∀ (f : Nat) (t : List Char), t.length ≤ f →
      containsL p (replaceAllF p r f t) = false := by
  intro f
  induction f with
  | zero =>
    intro t ht
    rw [List.length_eq_zero.mp (Nat.le_zero.mp ht)]
    exact containsL_nil_of_ne hp
  | succ f ih =>
    intro t ht
    cases t with
    | nil => exact containsL_nil_of_ne hp
    | cons c cs =>
      have hcs : cs.length ≤ f := by
        simp at ht
        omega
      by_cases hpre : prefixL p (c :: cs) = true
      · rw [replaceAllF_cons_pos r f hpre]
        cases hc : containsL p
            (r ++ replaceAllF p r f (List.drop (p.length - 1) cs)) with
        | false => rfl
        | true =>
          exfalso
          rcases containsL_append_cases r hc with hr | hX | ⟨j, hj, -, htake, -⟩
          · rw [hr] at hnr; cases hnr
          · have hlen : (List.drop (p.length - 1) cs).length ≤ f := by
              rw [List.length_drop]
              omega
            rw [ih (List.drop (p.length - 1) cs) hlen] at hX
            cases hX
          · rw [hstrad j hj] at htake; cases htake
      · rw [replaceAllF_cons_neg r f
          (Bool.eq_false_iff.mpr (fun hx => hpre hx)), containsL_cons]
        refine Bool.or_eq_false_iff.mpr ⟨?_, ih cs hcs⟩
        cases hpp : prefixL p (c :: replaceAllF p r f cs) with
        | false => rfl
        | true =>
          exfalso
          cases p with
          | nil => exact hp rfl
          | cons a p' =>
            obtain ⟨rfl, htail⟩ := prefixL_cons.mp hpp
            have := prefixL_drop_replaceAllF_self hside f cs 1
              (by simpa using htail)
            exact hpre (prefixL_cons.mpr ⟨rfl, by simpa using this⟩)

/-- A quoted pattern `q<core>q`. -/
def quotedLit (q : Char) (core : List Char) : List Char := q :: core ++ [q]

/-- The overlap chain `q<core>q<core>q`, whose absence makes the quoted
replacement leave no residual occurrence. -/
def quoteChain (q : Char) (core : List Char) : List Char :=
  quotedLit q core ++ core ++ [q]

/-- Quoted replacement (e.g. `"shared_net"` ↦ `"bb_net_<id>"`): no
occurrence of the quoted pattern is left when the text contains no overlap
chain `q<core>q<core>q`. -/
theorem containsL_replaceAllF_quoted {q sc nc : Char} {core' net' : List Char}
    (hscnc : sc ≠ nc) (hq_core : q ∉ sc :: core') (hq_net : q ∉ nc :: net') :
    ∀ (f : Nat) (t : List Char), t.length ≤ f →
      containsL ((q :: ((sc :: core') ++ [q])) ++ ((sc :: core') ++ [q])) t =
        false →
      containsL (q :: ((sc :: core') ++ [q]))
        (replaceAllF (q :: ((sc :: core') ++ [q]))
          (q :: ((nc :: net') ++ [q])) f t) = false := by
  intro f
  induction f with
  | zero =>
    intro t ht _
    rw [List.length_eq_zero.mp (Nat.le_zero.mp ht)]
    exact containsL_nil_of_ne (by simp)
  | succ f ih =>
    intro t ht hchain
    cases t with
    | nil => exact containsL_nil_of_ne (by simp)
    | cons c cs =>
      have hcs : cs.length ≤ f := by
        simp at ht
        omega
      by_cases hpre : prefixL (q :: ((sc :: core') ++ [q])) (c :: cs) = true
      · rw [replaceAllF_cons_pos _ f hpre]
        have hlen :
            (List.drop ((q :: ((sc :: core') ++ [q])).length - 1) cs).length
              ≤ f := by
          rw [List.length_drop]
          omega
        have hchain' :
            containsL ((q :: ((sc :: core') ++ [q])) ++ ((sc :: core') ++ [q]))
              (List.drop ((q :: ((sc :: core') ++ [q])).length - 1) cs) =
              false :=
          containsL_drop_eq_false _ (containsL_eq_false_tail hchain)
        have hih := ih _ hlen hchain'
        have htrans : prefixL ((sc :: core') ++ [q])
            (replaceAllF (q :: ((sc :: core') ++ [q]))
              (q :: ((nc :: net') ++ [q])) f
              (List.drop ((q :: ((sc :: core') ++ [q])).length - 1) cs)) =
              true →
            prefixL ((sc :: core') ++ [q])
              (List.drop ((q :: ((sc :: core') ++ [q])).length - 1) cs) =
              true := fun h => by
          simpa using prefixL_drop_replaceAllF_quote (nc :: net') hq_core f
            (List.drop ((q :: ((sc :: core') ++ [q])).length - 1) cs) 0
            (by simpa using h)
        generalize hXdef : replaceAllF (q :: ((sc :: core') ++ [q]))
            (q :: ((nc :: net') ++ [q])) f
            (List.drop ((q :: ((sc :: core') ++ [q])).length - 1) cs) = X
          at hih htrans ⊢
        show containsL (q :: ((sc :: core') ++ [q]))
          (q :: (((nc :: net') ++ [q]) ++ X)) = false
        rw [containsL_cons]
        refine Bool.or_eq_false_iff.mpr ⟨?_, ?_⟩
        · refine Bool.eq_false_iff.mpr fun hpp => ?_
          exact hscnc (prefixL_cons.mp (prefixL_cons.mp hpp).2).1
        · rw [show ((nc :: net') ++ [q]) ++ X = (nc :: net') ++ ([q] ++ X)
            from by simp]
          refine containsL_append_eq_false (nc :: net') hq_net ?_
          rw [List.singleton_append, containsL_cons]
          refine Bool.or_eq_false_iff.mpr ⟨?_, hih⟩
          refine Bool.eq_false_iff.mpr fun hpp => ?_
          have h3 := htrans (prefixL_cons.mp hpp).2
          have hdrop : List.drop ((q :: ((sc :: core') ++ [q])).length - 1) cs =
              List.drop (q :: ((sc :: core') ++ [q])).length (c :: cs) := by
            simp [List.drop_succ_cons]
          rw [hdrop] at h3
          have h4 := prefixL_append_compose hpre h3
          rw [containsL_of_prefixL h4] at hchain
          cases hchain
      · rw [replaceAllF_cons_neg _ f
          (Bool.eq_false_iff.mpr fun hx => hpre hx), containsL_cons]
        refine Bool.or_eq_false_iff.mpr
          ⟨?_, ih cs hcs (containsL_eq_false_tail hchain)⟩
        refine Bool.eq_false_iff.mpr fun hpp => ?_
        have hqc := (prefixL_cons.mp hpp).1
        have h3 := prefixL_drop_replaceAllF_quote (nc :: net') hq_core f cs 0
          (by simpa using (prefixL_cons.mp hpp).2)
        exact hpre (prefixL_cons.mpr ⟨hqc, by simpa using h3⟩)

/-- Replacing pattern `pB` cannot create an occurrence of an unrelated
pattern `pA`, under straddle-freeness of `rB` with respect to `pA`. -/
theorem containsL_replaceAllF_other {pA pB rB : List Char}
    (hnrB : containsL pA rB = false)
    (hstrad : ∀ j, j < rB.length →
      prefixL (pA.take (rB.length - j)) (rB.drop j) = false)
    (hside : ∀ i, i < pA.length →
      prefixL ((pA.drop i).take rB.length) rB = false) :
    ∀ (f : Nat) (t : List Char), containsL pA t = false →
      containsL pA (replaceAllF pB rB f t) = false := by
  intro f
  induction f with
  | zero => intro t h; exact h
  | succ f ih =>
    intro t h
    cases t with
    | nil => exact h
    | cons c cs =>
      by_cases hpre : prefixL pB (c :: cs) = true
      · rw [replaceAllF_cons_pos rB f hpre]
        refine Bool.eq_false_iff.mpr fun hc => ?_
        rcases containsL_append_cases rB hc with hr | hX | ⟨j, hj, -, htake, -⟩
        · rw [hr] at hnrB; cases hnrB
        · have hdropF : containsL pA (List.drop (pB.length - 1) cs) = false :=
            containsL_drop_eq_false _ (containsL_eq_false_tail h)
          rw [ih (List.drop (pB.length - 1) cs) hdropF] at hX
          cases hX
        · rw [hstrad j hj] at htake; cases htake
      · rw [replaceAllF_cons_neg rB f
          (Bool.eq_false_iff.mpr fun hx => hpre hx), containsL_cons]
        refine Bool.or_eq_false_iff.mpr
          ⟨?_, ih cs (containsL_eq_false_tail h)⟩
        refine Bool.eq_false_iff.mpr fun hpp => ?_
        cases hA : pA with
        | nil =>
          rw [hA, containsL_nil_left] at h
          cases h
        | cons a pA' =>
          rw [hA] at hpp
          obtain ⟨rfl, htail⟩ := prefixL_cons.mp hpp
          have := prefixL_drop_replaceAllF_strict pB
            (fun i hi => hside i hi) f cs 1 (by rw [hA]; simpa using htail)
          rw [hA] at this
          have hfull : prefixL pA (a :: cs) = true := by
            rw [hA]
            exact prefixL_cons.mpr ⟨rfl, by simpa using this⟩
          rw [containsL_of_prefixL hfull] at h
          cases h

/-- When the pattern does not occur, replacement is the identity. -/
theorem replaceAllF_id_of_not_containsL {p r : List Char} :
    ∀ (f : Nat) (t : List Char), containsL p t = false →
      replaceAllF p r f t = t := by
  intro f
  induction f with
  | zero => intro t _; rfl
  | succ f ih =>
    intro t h
    cases t with
    | nil => rfl
    | cons c cs =>
      by_cases hpre : prefixL p (c :: cs) = true
      · rw [containsL_of_prefixL hpre] at h
        cases h
      · rw [replaceAllF_cons_neg r f
          (Bool.eq_false_iff.mpr fun hx => hpre hx),
          ih cs (containsL_eq_false_tail h)]

/-- `replaceAll` is the identity on occurrence-free text. -/
theorem replaceAll_id_of_not_containsL {p r t : List Char}
    (h : containsL p t = false) : replaceAll p r t = t :=
  replaceAllF_id_of_not_containsL t.length t h

/-! ### The Isolation Rewriter (`patch_clone_for_isolation`, lines 212–370)

File contents are modelled as lists of newline-free lines: every rewrite
in the source is either line-anchored (`re.MULTILINE` with `^...$`) or a
`str.replace` whose needle contains no newline, hence line-local. -/

/-- `NETWORK_LITERAL = "shared_net"` (line 209). -/
def NETWORK_LITERAL : List Char := "shared_net".data

/-- `job_network = f"bb_net_{job_id}"` (line 220). -/
def job_network (job_id : List Char) : List Char := "bb_net_".data ++ job_id

/-- `composePrefixL = f"bb_{job_id}"` (line 221). -/
def composePrefixL (job_id : List Char) : List Char := "bb_".data ++ job_id

/-- Hexadecimal digits: the alphabet of `uuid.uuid4().hex[:10]` job ids. -/
def isHexDigit (c : Char) : Bool := c.isDigit || ('a' ≤ c && c ≤ 'f')

/-- `_patch_shared_net_in_python`, per file (lines 297–311): skip the file
unless it mentions `shared_net` at all, else replace the double-quoted and
then the single-quoted form by the correspondingly quoted job network. -/
def patchPyContent (job_id : List Char) (lines : List (List Char)) :
    List (List Char) :=
  if lines.any (fun l => containsL NETWORK_LITERAL l) then
    lines.map fun l =>
      replaceAll ('\'' :: NETWORK_LITERAL ++ ['\''])
        ('\'' :: job_network job_id ++ ['\''])
        (replaceAll ('"' :: NETWORK_LITERAL ++ ['"'])
          ('"' :: job_network job_id ++ ['"']) l)
  else lines

/-- Quote characters, as stripped by `strip("'\"")`. -/
def isQuoteC (c : Char) : Bool := c = '\'' || c = '"'

/-- The literal `container_name:`. -/
def cnLit : List Char := "container_name:".data

/-- Python `.strip(...)`: drop characters satisfying the class from both
ends. -/
def stripEnds (p : Char → Bool) (l : List Char) : List Char :=
  ((l.dropWhile p).reverse.dropWhile p).reverse

/-- Match of `^(\s*)container_name:\s*(.+)$` on one line: the indent and
the raw text after the colon (which must be non-empty for `.+`). -/
def cnParse (line : List Char) : Option (List Char × List Char) :=
  if prefixL cnLit (line.dropWhile isWS) ∧
      (line.dropWhile isWS).drop cnLit.length ≠ [] then
    some (line.takeWhile isWS, (line.dropWhile isWS).drop cnLit.length)
  else none

/-- The `container_name` rewrite for one line (lines 343–353): replace a
matching line by `<indent>container_name: <composePrefixL>-<name>`, where
`<name>` is the matched value stripped of whitespace and then of quotes
(`m.group(2).strip().strip("'\"")`). -/
def patchCnLine (job_id line : List Char) : List Char :=
  match cnParse line with
  | some (indent, val) =>
    indent ++ cnLit ++ [' '] ++ composePrefixL job_id ++ ['-'] ++
      stripEnds isQuoteC (stripEnds isWS val)
  | none => line

/-- `\w`, modelled as ASCII alphanumeric or underscore. -/
def isWordC (c : Char) : Bool := c.isAlphanum || c = '_'

/-- The closing backreference `\2` and trailing `\s*$` of the port rule. -/
def portParseEnd (ind : List Char) (qopt : Option Char)
    (host cont rest7 : List Char) :
    Option (List Char × Option Char × List Char × List Char) :=
  match qopt with
  | some qc =>
    (match rest7 with
     | c :: r8 =>
       if c = qc ∧ r8.all isWS then some (ind, some qc, host, cont) else none
     | [] => none)
  | none =>
    if rest7.all isWS then some (ind, none, host, cont) else none

/-- The optional `(?:/\w+)?` protocol suffix and the tail checks. -/
def portParseTrail (ind : List Char) (qopt : Option Char)
    (host cd rest6 : List Char) :
    Option (List Char × Option Char × List Char × List Char) :=
  match rest6 with
  | '/' :: r =>
    if r.takeWhile isWordC = [] then portParseEnd ind qopt host cd rest6
    else portParseEnd ind qopt host (cd ++ '/' :: r.takeWhile isWordC)
      (r.dropWhile isWordC)
  | _ => portParseEnd ind qopt host cd rest6

/-- The container digits `(\d+ ...)`. -/
def portParseCont (ind : List Char) (qopt : Option Char)
    (host rest5 : List Char) :
    Option (List Char × Option Char × List Char × List Char) :=
  if rest5.takeWhile Char.isDigit = [] then none
  else portParseTrail ind qopt host (rest5.takeWhile Char.isDigit)
    (rest5.dropWhile Char.isDigit)

/-- The host digits `(\d+)` and the `:`. -/
def portParseBody (ind : List Char) (qopt : Option Char) (rest3 : List Char) :
    Option (List Char × Option Char × List Char × List Char) :=
  if rest3.takeWhile Char.isDigit = [] then none
  else
    match rest3.dropWhile Char.isDigit with
    | ':' :: rest5 => portParseCont ind qopt (rest3.takeWhile Char.isDigit) rest5
    | _ => none

/-- The optional opening quote `(["']?)`. -/
def portParseAfterDash (ind rest2 : List Char) :
    Option (List Char × Option Char × List Char × List Char) :=
  match rest2 with
  | c :: cs => if isQuoteC c then portParseBody ind (some c) cs
               else portParseBody ind none (c :: cs)
  | [] => portParseBody ind none []

/-- Match of `^(\s*)-\s*(["']?)(\d+):(\d+(?:/\w+)?)\2\s*$` on one line:
the indent, the optional quote, the host digits and the container part
(digits plus optional `/proto`).  `\w` is modelled as ASCII alphanumeric
or underscore (`isWordC`). -/
def portParse (line : List Char) :
    Option (List Char × Option Char × List Char × List Char) :=
  match line.dropWhile isWS with
  | '-' :: rest1 =>
    portParseAfterDash (line.takeWhile isWS) (rest1.dropWhile isWS)
  | _ => none

/-- The host-port rewrite for one line (lines 360–365): replace a matching
binding by `<indent>- <q>0:<container><q>`. -/
def patchPortLine (line : List Char) : List Char :=
  match portParse line with
  | some (indent, qopt, _host, cont) =>
    indent ++ ('-' :: ' ' :: (match qopt with | some qc => [qc] | none => []))
      ++ ('0' :: ':' :: cont) ++
      (match qopt with | some qc => [qc] | none => [])
  | none => line

/-- `_patch_one_compose_file` on one line (lines 329–365), in source
order: `shared_net` replacement, then `container_name` prefixing, then
host-port remapping. -/
def patchComposeLine (job_id line : List Char) : List Char :=
  patchPortLine (patchCnLine job_id
    (replaceAll NETWORK_LITERAL (job_network job_id) line))

def patchComposeContent (job_id : List Char) (lines : List (List Char)) :
    List (List Char) :=
  lines.map (patchComposeLine job_id)

/-- Consume an exact literal. -/
def eatLit (lit s : List Char) : Option (List Char) :=
  if prefixL lit s then some (s.drop lit.length) else none

/-- Match of the chown-removal pattern (lines 265–270):
`^\s*subprocess\.run\(\["sudo",\s*"chown",\s*"-r",\s*"ubuntu",\s*"~/bountybench/bountytasks"\]\)\s*\n`
on one line (the trailing `\s*\n` removes the whole line). -/
def chownLineMatch (line : List Char) : Bool :=
  match eatLit "subprocess.run([\"sudo\",".data (line.dropWhile isWS) with
  | none => false
  | some s1 =>
    match eatLit "\"chown\",".data (s1.dropWhile isWS) with
    | none => false
    | some s2 =>
      match eatLit "\"-r\",".data (s2.dropWhile isWS) with
      | none => false
      | some s3 =>
        match eatLit "\"ubuntu\",".data (s3.dropWhile isWS) with
        | none => false
        | some s4 =>
          match eatLit "\"~/bountybench/bountytasks\"])".data
              (s4.dropWhile isWS) with
          | none => false
          | some s5 => s5.all isWS

/-- `_patch_git_utils` content rewrite (lines 260–277): drop the chown
lines, then replace `use_sudo=True` with `use_sudo=False`. -/
def patchGitUtilsContent (lines : List (List Char)) : List (List Char) :=
  (lines.filter fun l => !chownLineMatch l).map
    (fun l => replaceAll "use_sudo=True".data "use_sudo=False".data l)

/-- Which rewrite reaches a file of the clone: `.py` files under the four
scan roots, compose files anywhere, `utils/git_utils.py`, or none. -/
inductive PatchFileKind where
  | pyScanned | composeFile | gitUtils | other
deriving DecidableEq, Repr

structure PatchFile where
  kind : PatchFileKind
  lines : List (List Char)
deriving DecidableEq, Repr

def patchFile (job_id : List Char) (f : PatchFile) : PatchFile :=
  match f.kind with
  | .pyScanned => ⟨f.kind, patchPyContent job_id f.lines⟩
  | .composeFile => ⟨f.kind, patchComposeContent job_id f.lines⟩
  | .gitUtils => ⟨f.kind, patchGitUtilsContent f.lines⟩
  | .other => f

/-- `patch_clone_for_isolation` (lines 212–241): rewrite every reachable
file of the clone and return the per-job network name. -/
def patch_clone_for_isolation (job_id : List Char) (clone : List PatchFile) :
    List Char × List PatchFile :=
  (job_network job_id, clone.map (patchFile job_id))

/-- A ten-hex-digit job id, as produced by `uuid.uuid4().hex[:10]`. -/
def jobIdEx : List Char := "abcdef0123".data

/-- A clone whose single compose file carries a `container_name:`. -/
def cnClone : List PatchFile :=
  [⟨.composeFile, ["container_name: app".data]⟩]

/-- C2 counterexample: applying the rewriter twice with the same JobId is
NOT byte-identical to applying it once — the `container_name` rule has no
guard against an already-prefixed value and prefixes it again. -/
theorem patch_clone_not_idempotent :
    (patch_clone_for_isolation jobIdEx
        (patch_clone_for_isolation jobIdEx cnClone).2).2 ≠
      (patch_clone_for_isolation jobIdEx cnClone).2 ∧
    (patch_clone_for_isolation jobIdEx cnClone).2 =
      [⟨.composeFile, ["container_name: bb_abcdef0123-app".data]⟩] ∧
    (patch_clone_for_isolation jobIdEx
        (patch_clone_for_isolation jobIdEx cnClone).2).2 =
      [⟨.composeFile,
        ["container_name: bb_abcdef0123-bb_abcdef0123-app".data]⟩] := by
  refine ⟨?_, ?_, ?_⟩ <;> decide

/-- A scanned `.py` file containing the bare (unquoted) literal. -/
def pyBareClone : List PatchFile :=
  [⟨.pyScanned, ["net = shared_net".data]⟩]

/-- C3 counterexample: the Python rewrite replaces only the quoted forms,
so a bare `shared_net` in a reachable `.py` file survives the rewriter —
the clone still contains the literal string `shared_net`. -/
theorem patch_leaves_bare_shared_net :
    (patch_clone_for_isolation jobIdEx pyBareClone).2 = pyBareClone ∧
    containsL NETWORK_LITERAL "net = shared_net".data = true := by
  refine ⟨?_, ?_⟩ <;> decide

/-! ### Helper lemmas for the amended rewriter claims -/

theorem takeWhileL_append_all {p : Char → Bool} {u : List Char}
    (v : List Char) (hu : u.all p = true) :
    (u ++ v).takeWhile p = u ++ v.takeWhile p := by
  induction u with
  | nil => rfl
  | cons c u' ih =>
    have hu' := hu
    rw [List.all_cons, Bool.and_eq_true] at hu'
    simp [List.takeWhile_cons, hu'.1, ih hu'.2]

theorem dropWhileL_append_all {p : Char → Bool} {u : List Char}
    (v : List Char) (hu : u.all p = true) :
    (u ++ v).dropWhile p = v.dropWhile p := by
  induction u with
  | nil => rfl
  | cons c u' ih =>
    have hu' := hu
    rw [List.all_cons, Bool.and_eq_true] at hu'
    simp [List.dropWhile_cons, hu'.1, ih hu'.2]

theorem takeWhileL_cons_neg {p : Char → Bool} {c : Char} (v : List Char)
    (hc : p c = false) : (c :: v).takeWhile p = [] := by
  simp [List.takeWhile_cons, hc]

theorem dropWhileL_cons_neg {p : Char → Bool} {c : Char} (v : List Char)
    (hc : p c = false) : (c :: v).dropWhile p = c :: v := by
  simp [List.dropWhile_cons, hc]

theorem takeWhileL_all {p : Char → Bool} {u : List Char}
    (hu : u.all p = true) : u.takeWhile p = u := by
  have := takeWhileL_append_all (p := p) [] hu
  simpa using this

theorem takeWhileL_append_stop {p : Char → Bool} {u : List Char} {c : Char}
    (v : List Char) (hu : u.all p = true) (hc : p c = false) :
    (u ++ c :: v).takeWhile p = u := by
  rw [takeWhileL_append_all (c :: v) hu, takeWhileL_cons_neg v hc,
    List.append_nil]

theorem dropWhileL_append_stop {p : Char → Bool} {u : List Char} {c : Char}
    (v : List Char) (hu : u.all p = true) (hc : p c = false) :
    (u ++ c :: v).dropWhile p = c :: v := by
  rw [dropWhileL_append_all (c :: v) hu, dropWhileL_cons_neg v hc]

theorem all_takeWhileL (p : Char → Bool) (l : List Char) :
    (l.takeWhile p).all p = true := by
  induction l with
  | nil => rfl
  | cons c cs ih =>
    by_cases hc : p c = true
    · simp [List.takeWhile_cons, hc, ih]
    · simp [List.takeWhile_cons, Bool.eq_false_iff.mpr hc]

theorem dropWhileL_eq_drop (p : Char → Bool) (l : List Char) :
    l.dropWhile p = l.drop (l.takeWhile p).length := by
  induction l with
  | nil => rfl
  | cons c cs ih =>
    by_cases hc : p c = true
    · simp [List.takeWhile_cons, List.dropWhile_cons, hc, ih]
    · simp [List.takeWhile_cons, List.dropWhile_cons,
        Bool.eq_false_iff.mpr hc]

/-- A prefix plus the remaining drop reconstitutes the list. -/
theorem prefixL_decomp {p x : List Char} (h : prefixL p x = true) :
    p ++ x.drop p.length = x := by
  induction p generalizing x with
  | nil => simp
  | cons a p' ih =>
    cases x with
    | nil => cases h
    | cons b bs =>
      obtain ⟨rfl, h'⟩ := prefixL_cons.mp h
      simpa using ih h'

theorem containsL_cons_eq_false {a : Char} {p' : List Char} {c : Char}
    {X : List Char} (hne : a ≠ c)
    (h : containsL (a :: p') X = false) :
    containsL (a :: p') (c :: X) = false := by
  rw [containsL_cons]
  refine Bool.or_eq_false_iff.mpr ⟨?_, h⟩
  cases hp : prefixL (a :: p') (c :: X) with
  | false => rfl
  | true => exact absurd (prefixL_cons.mp hp).1 hne

theorem containsL_dropWhile_eq_false {p : List Char} (q : Char → Bool)
    {x : List Char} (h : containsL p x = false) :
    containsL p (x.dropWhile q) = false := by
  rw [dropWhileL_eq_drop]
  exact containsL_drop_eq_false _ h

theorem containsL_take_eq_false {p x : List Char} (k : Nat)
    (h : containsL p x = false) : containsL p (x.take k) = false := by
  cases hc : containsL p (x.take k) with
  | false => rfl
  | true =>
    have := containsL_append_right (x.drop k) hc
    rw [List.take_append_drop] at this
    rw [this] at h
    cases h

theorem containsL_revDropWhile_eq_false {p : List Char} (q : Char → Bool)
    {x : List Char} (h : containsL p x = false) :
    containsL p ((x.reverse.dropWhile q).reverse) = false := by
  cases hc : containsL p ((x.reverse.dropWhile q).reverse) with
  | false => rfl
  | true =>
    exfalso
    have hx : (x.reverse.dropWhile q).reverse ++
        (x.reverse.takeWhile q).reverse = x := by
      rw [← List.reverse_append, List.takeWhile_append_dropWhile,
        List.reverse_reverse]
    have := containsL_append_right (x.reverse.takeWhile q).reverse hc
    rw [hx] at this
    rw [this] at h
    cases h

theorem containsL_stripEnds_eq_false {p : List Char} (q : Char → Bool)
    {x : List Char} (h : containsL p x = false) :
    containsL p (stripEnds q x) = false :=
  containsL_revDropWhile_eq_false q (containsL_dropWhile_eq_false q h)

/-- Characters of `job_network job_id` for a hex job id. -/
theorem mem_job_network {c : Char} {job_id : List Char}
    (hid : job_id.all isHexDigit = true) (h : c ∈ job_network job_id) :
    c ∈ "bb_net_".data ∨ isHexDigit c = true := by
  rcases List.mem_append.mp h with h' | h'
  · exact Or.inl h'
  · exact Or.inr (List.all_eq_true.mp hid _ h')

/-- Characters of `composePrefixL job_id` for a hex job id. -/
theorem mem_composePrefixL {c : Char} {job_id : List Char}
    (hid : job_id.all isHexDigit = true) (h : c ∈ composePrefixL job_id) :
    c ∈ "bb_".data ∨ isHexDigit c = true := by
  rcases List.mem_append.mp h with h' | h'
  · exact Or.inl h'
  · exact Or.inr (List.all_eq_true.mp hid _ h')

theorem s_not_mem_job_network {job_id : List Char}
    (hid : job_id.all isHexDigit = true) :
    ('s' : Char) ∉ job_network job_id := by
  intro h
  rcases mem_job_network hid h with h' | h'
  · exact absurd h' (by decide)
  · exact absurd h' (by decide)

theorem s_not_mem_composePrefixL {job_id : List Char}
    (hid : job_id.all isHexDigit = true) :
    ('s' : Char) ∉ composePrefixL job_id := by
  intro h
  rcases mem_composePrefixL hid h with h' | h'
  · exact absurd h' (by decide)
  · exact absurd h' (by decide)

theorem quote_not_mem_job_network {c : Char} {job_id : List Char}
    (hid : job_id.all isHexDigit = true) (hq : isQuoteC c = true) :
    c ∉ job_network job_id := by
  intro h
  have hcq : c = '\'' ∨ c = '"' := by simpa [isQuoteC] using hq
  rcases mem_job_network hid h with h'' | h'' <;> rcases hcq with rfl | rfl <;>
    exact absurd h'' (by decide)

/-- After the compose `shared_net` replacement no occurrence of the
literal is left (for a hex job id). -/
theorem sharedNet_absent_after_replace {job_id : List Char}
    (hid : job_id.all isHexDigit = true) (l : List Char) :
    containsL NETWORK_LITERAL
      (replaceAll NETWORK_LITERAL (job_network job_id) l) = false := by
  have hs : ('s' : Char) ∉ job_network job_id := s_not_mem_job_network hid
  refine containsL_replaceAllF_self (by decide) ?_ ?_ ?_ l.length l (le_refl _)
  · cases hc : containsL NETWORK_LITERAL (job_network job_id) with
    | false => rfl
    | true =>
      exact absurd (mem_of_containsL hc 's' (by decide)) hs
  · exact hstrad_of_head_notin hs
  · exact hside_self_of_head_notin NETWORK_LITERAL 'b'
      ("b_net_".data ++ job_id) (by decide)

/-- Transfer of a line-initial (after whitespace) literal through
`replaceAllF`, when the replacement starts with a non-whitespace character
not occurring in the literal. -/
theorem prefixL_dropWhile_replaceAllF {pB : List Char} (rh : Char)
    (r' : List Char) {lit : List Char} (hrh_lit : rh ∉ lit)
    (hrh_ws : isWS rh = false) :
    ∀ (f : Nat) (t : List Char),
      prefixL lit ((replaceAllF pB (rh :: r') f t).dropWhile isWS) = true →
      prefixL lit (t.dropWhile isWS) = true := by
  intro f
  induction f with
  | zero => intro t h; exact h
  | succ f ih =>
    intro t h
    cases t with
    | nil => exact h
    | cons c cs =>
      by_cases hpre : prefixL pB (c :: cs) = true
      · rw [replaceAllF_cons_pos _ f hpre,
          show ((rh :: r') ++ replaceAllF pB (rh :: r') f
            (List.drop (pB.length - 1) cs)) =
            rh :: (r' ++ replaceAllF pB (rh :: r') f
            (List.drop (pB.length - 1) cs)) from rfl,
          dropWhileL_cons_neg _ hrh_ws] at h
        cases lit with
        | nil => exact prefixL_nil _
        | cons x lit' =>
          obtain ⟨rfl, -⟩ := prefixL_cons.mp h
          exact absurd (List.mem_cons_self _ _) hrh_lit
      · rw [replaceAllF_cons_neg _ f
          (Bool.eq_false_iff.mpr fun hx => hpre hx)] at h
        by_cases hcws : isWS c = true
        · rw [List.dropWhile_cons, if_pos hcws] at h
          rw [List.dropWhile_cons, if_pos hcws]
          exact ih cs h
        · rw [dropWhileL_cons_neg _ (Bool.eq_false_iff.mpr hcws)] at h
          rw [dropWhileL_cons_neg _ (Bool.eq_false_iff.mpr hcws)]
          cases lit with
          | nil => exact prefixL_nil _
          | cons x lit' =>
            obtain ⟨rfl, htail⟩ := prefixL_cons.mp h
            have hside := hside_strict_of_head_notin r' hrh_lit
            have := prefixL_drop_replaceAllF_strict pB hside f cs 1
              (by simpa using htail)
            exact prefixL_cons.mpr ⟨rfl, by simpa using this⟩

/-- A `container_name:` match cannot be created by the compose
`shared_net` replacement: a non-matching line stays non-matching. -/
theorem cnParse_replaceAll_none {job_id l : List Char}
    (hid : job_id.all isHexDigit = true) (h : cnParse l = none) :
    cnParse (replaceAll NETWORK_LITERAL (job_network job_id) l) = none := by
  by_cases hp : prefixL cnLit
      ((replaceAll NETWORK_LITERAL (job_network job_id) l).dropWhile isWS) =
      true
  · have hpl : prefixL cnLit (l.dropWhile isWS) = true :=
      prefixL_dropWhile_replaceAllF 'b'
        ("b_net_".data ++ job_id) (by decide) (by decide) l.length l hp
    have hval : (l.dropWhile isWS).drop cnLit.length = [] := by
      by_contra hval
      unfold cnParse at h
      rw [if_pos ⟨hpl, hval⟩] at h
      cases h
    have hdrop : l.dropWhile isWS = cnLit := by
      have := prefixL_decomp hpl
      rw [hval, List.append_nil] at this
      exact this.symm
    have hlid : l = l.takeWhile isWS ++ cnLit := by
      rw [← hdrop, List.takeWhile_append_dropWhile]
    have hfree : containsL NETWORK_LITERAL l = false := by
      rw [hlid]
      refine containsL_append_eq_false (l.takeWhile isWS) ?_ (by decide)
      intro hmem
      have := List.all_eq_true.mp (all_takeWhileL isWS l) _ hmem
      exact absurd this (by decide)
    rw [replaceAll_id_of_not_containsL hfree]
    exact h
  · unfold cnParse
    rw [if_neg (fun hand => hp hand.1)]

/-- `patchCnLine` preserves absence of `shared_net` (for a hex job id). -/
theorem cn_preserves_sharedNet_absence {job_id l : List Char}
    (hid : job_id.all isHexDigit = true)
    (h : containsL NETWORK_LITERAL l = false) :
    containsL NETWORK_LITERAL (patchCnLine job_id l) = false := by
  unfold patchCnLine
  rcases hparse : cnParse l with - | ⟨indent, val⟩
  · exact h
  · have hind : indent = l.takeWhile isWS ∧
        val = (l.dropWhile isWS).drop cnLit.length := by
      unfold cnParse at hparse
      by_cases hc : prefixL cnLit (l.dropWhile isWS) = true ∧
          (l.dropWhile isWS).drop cnLit.length ≠ []
      · rw [if_pos hc] at hparse
        have hpair := Option.some.inj hparse
        exact ⟨(congrArg Prod.fst hpair).symm, (congrArg Prod.snd hpair).symm⟩
      · rw [if_neg hc] at hparse
        cases hparse
    obtain ⟨rfl, rfl⟩ := hind
    show containsL NETWORK_LITERAL
      (l.takeWhile isWS ++ cnLit ++ [' '] ++ composePrefixL job_id ++ ['-'] ++
        stripEnds isQuoteC (stripEnds isWS
          ((l.dropWhile isWS).drop cnLit.length))) = false
    have hname : containsL NETWORK_LITERAL
        (stripEnds isQuoteC (stripEnds isWS
          ((l.dropWhile isWS).drop cnLit.length))) = false := by
      refine containsL_stripEnds_eq_false _ (containsL_stripEnds_eq_false _ ?_)
      exact containsL_drop_eq_false _ (containsL_dropWhile_eq_false _ h)
    rw [List.append_assoc, List.append_assoc, List.append_assoc,
      List.append_assoc]
    refine containsL_append_eq_false
      (l.takeWhile isWS) ?_ ?_
    · intro hmem
      exact absurd (List.all_eq_true.mp (all_takeWhileL isWS l) _ hmem)
        (by decide)
    · refine containsL_append_eq_false cnLit (by decide) ?_
      refine containsL_append_eq_false [' '] (by decide) ?_
      refine containsL_append_eq_false (composePrefixL job_id)
        (s_not_mem_composePrefixL hid) ?_
      refine containsL_append_eq_false ['-'] (by decide) ?_
      exact hname

theorem portParseEnd_some {ind : List Char} {qopt : Option Char}
    {host cont rest7 ind' : List Char} {qopt' : Option Char}
    {host' cont' : List Char}
    (h : portParseEnd ind qopt host cont rest7 =
      some (ind', qopt', host', cont')) :
    ind' = ind ∧ qopt' = qopt ∧ host' = host ∧ cont' = cont := by
  unfold portParseEnd at h
  split at h
  · split at h
    · split at h
      · have := Option.some.inj h
        refine ⟨?_, ?_, ?_, ?_⟩
        · exact (congrArg (fun x => x.1) this).symm
        · exact (congrArg (fun x => x.2.1) this).symm
        · exact (congrArg (fun x => x.2.2.1) this).symm
        · exact (congrArg (fun x => x.2.2.2) this).symm
      · cases h
    · cases h
  · split at h
    · have := Option.some.inj h
      refine ⟨?_, ?_, ?_, ?_⟩
      · exact (congrArg (fun x => x.1) this).symm
      · exact (congrArg (fun x => x.2.1) this).symm
      · exact (congrArg (fun x => x.2.2.1) this).symm
      · exact (congrArg (fun x => x.2.2.2) this).symm
    · cases h

theorem portParseTrail_some {ind : List Char} {qopt : Option Char}
    {host cd rest6 : List Char}
    {out : List Char × Option Char × List Char × List Char}
    (h : portParseTrail ind qopt host cd rest6 = some out) :
    ∃ pr rest7, rest6 = pr ++ rest7 ∧
      (pr = [] ∨ ∃ w, pr = '/' :: w ∧ w ≠ [] ∧ w.all isWordC = true) ∧
      portParseEnd ind qopt host (cd ++ pr) rest7 = some out := by
  unfold portParseTrail at h
  split at h
  · next r =>
    by_cases hw : r.takeWhile isWordC = []
    · rw [if_pos hw] at h
      exact ⟨[], '/' :: r, rfl, Or.inl rfl, by simpa using h⟩
    · rw [if_neg hw] at h
      refine ⟨'/' :: r.takeWhile isWordC, r.dropWhile isWordC, ?_,
        Or.inr ⟨r.takeWhile isWordC, rfl, hw, all_takeWhileL _ _⟩, h⟩
      simp [List.takeWhile_append_dropWhile]
  · exact ⟨[], rest6, rfl, Or.inl rfl, by simpa using h⟩

theorem portParseCont_some {ind : List Char} {qopt : Option Char}
    {host rest5 : List Char}
    {out : List Char × Option Char × List Char × List Char}
    (h : portParseCont ind qopt host rest5 = some out) :
    ∃ cd rest6, rest5 = cd ++ rest6 ∧ cd ≠ [] ∧ cd.all Char.isDigit = true ∧
      portParseTrail ind qopt host cd rest6 = some out := by
  unfold portParseCont at h
  split at h
  · cases h
  · next hcd =>
    exact ⟨rest5.takeWhile Char.isDigit, rest5.dropWhile Char.isDigit,
      (List.takeWhile_append_dropWhile _ _).symm, hcd, all_takeWhileL _ _, h⟩

theorem portParseBody_some {ind : List Char} {qopt : Option Char}
    {rest3 : List Char}
    {out : List Char × Option Char × List Char × List Char}
    (h : portParseBody ind qopt rest3 = some out) :
    ∃ host rest5, rest3 = host ++ ':' :: rest5 ∧ host ≠ [] ∧
      host.all Char.isDigit = true ∧
      portParseCont ind qopt host rest5 = some out := by
  unfold portParseBody at h
  split at h
  · cases h
  · next hhost =>
    split at h
    · next rest5 heq =>
      refine ⟨rest3.takeWhile Char.isDigit, rest5, ?_, hhost,
        all_takeWhileL _ _, h⟩
      rw [← heq, List.takeWhile_append_dropWhile]
    · cases h

theorem portParseAfterDash_some {ind rest2 : List Char}
    {out : List Char × Option Char × List Char × List Char}
    (h : portParseAfterDash ind rest2 = some out) :
    ∃ qh rest3, rest2 = qh ++ rest3 ∧
      ((qh = [] ∧ portParseBody ind none rest3 = some out) ∨
       (∃ qc, qh = [qc] ∧ isQuoteC qc = true ∧
         portParseBody ind (some qc) rest3 = some out)) := by
  unfold portParseAfterDash at h
  split at h
  · next c cs =>
    by_cases hq : isQuoteC c = true
    · rw [if_pos hq] at h
      exact ⟨[c], cs, rfl, Or.inr ⟨c, rfl, hq, h⟩⟩
    · rw [if_neg hq] at h
      exact ⟨[], c :: cs, rfl, Or.inl ⟨rfl, h⟩⟩
  · exact ⟨[], [], rfl, Or.inl ⟨rfl, h⟩⟩

theorem portParse_some_stage {line : List Char}
    {out : List Char × Option Char × List Char × List Char}
    (h : portParse line = some out) :
    ∃ w1 rest2, line.dropWhile isWS = '-' :: (w1 ++ rest2) ∧
      w1.all isWS = true ∧
      portParseAfterDash (line.takeWhile isWS) rest2 = some out := by
  unfold portParse at h
  split at h
  · next rest1 heq =>
    exact ⟨rest1.takeWhile isWS, rest1.dropWhile isWS,
      by rw [heq, List.takeWhile_append_dropWhile], all_takeWhileL _ _, h⟩
  · cases h

/-- The facts about a successful port-binding match that the invariant and
idempotence arguments need. -/
theorem portParse_some_facts {line ind : List Char} {qopt : Option Char}
    {host cont : List Char}
    (h : portParse line = some (ind, qopt, host, cont)) :
    ind = line.takeWhile isWS ∧
    (∀ qc, qopt = some qc → isQuoteC qc = true) ∧
    host ≠ [] ∧ host.all Char.isDigit = true ∧
    (∃ cd pr, cont = cd ++ pr ∧ cd ≠ [] ∧ cd.all Char.isDigit = true ∧
      (pr = [] ∨ ∃ w, pr = '/' :: w ∧ w ≠ [] ∧ w.all isWordC = true)) ∧
    (∃ pre post, line = pre ++ cont ++ post) := by
  obtain ⟨w1, rest2, hdw, hw1, h1⟩ := portParse_some_stage h
  obtain ⟨qh, rest3, hq, h2⟩ := portParseAfterDash_some h1
  have hbody : ∃ q0, portParseBody (line.takeWhile isWS) q0 rest3 =
      some (ind, qopt, host, cont) ∧
      (∀ qc, qopt = some qc → isQuoteC qc = true) := by
    rcases h2 with ⟨-, hb⟩ | ⟨qc, -, hqc, hb⟩
    · refine ⟨none, hb, fun qc hqc' => ?_⟩
      obtain ⟨host0, rest5, -, -, -, hc⟩ := portParseBody_some hb
      obtain ⟨cd, rest6, -, -, -, ht⟩ := portParseCont_some hc
      obtain ⟨pr, rest7, -, -, he⟩ := portParseTrail_some ht
      obtain ⟨-, hqeq, -, -⟩ := portParseEnd_some he
      rw [hqeq] at hqc'
      cases hqc'
    · refine ⟨some qc, hb, fun qc' hqc' => ?_⟩
      obtain ⟨host0, rest5, -, -, -, hc⟩ := portParseBody_some hb
      obtain ⟨cd, rest6, -, -, -, ht⟩ := portParseCont_some hc
      obtain ⟨pr, rest7, -, -, he⟩ := portParseTrail_some ht
      obtain ⟨-, hqeq, -, -⟩ := portParseEnd_some he
      rw [hqeq] at hqc'
      rw [Option.some.inj hqc'] at hqc
      exact hqc
  obtain ⟨q0, hb, hqfact⟩ := hbody
  obtain ⟨host0, rest5, hr3, hh0ne, hh0dig, hc⟩ := portParseBody_some hb
  obtain ⟨cd, rest6, hr5, hcdne, hcddig, ht⟩ := portParseCont_some hc
  obtain ⟨pr, rest7, hr6, hpr, he⟩ := portParseTrail_some ht
  obtain ⟨hind, hqeq, hhost, hcont⟩ := portParseEnd_some he
  refine ⟨hind, hqfact, by rw [hhost]; exact hh0ne,
    by rw [hhost]; exact hh0dig,
    ⟨cd, pr, hcont, hcdne, hcddig, hpr⟩, ?_⟩
  refine ⟨line.takeWhile isWS ++ '-' :: (w1 ++ qh ++ host0 ++ [':']),
    rest7, ?_⟩
  have hline : line = line.takeWhile isWS ++ line.dropWhile isWS :=
    (List.takeWhile_append_dropWhile _ _).symm
  rw [hcont]
  calc line = line.takeWhile isWS ++ line.dropWhile isWS := hline
    _ = line.takeWhile isWS ++ ('-' :: (w1 ++ rest2)) := by rw [hdw]
    _ = line.takeWhile isWS ++ ('-' :: (w1 ++ (qh ++ rest3))) := by rw [hq]
    _ = line.takeWhile isWS ++
        ('-' :: (w1 ++ (qh ++ (host0 ++ ':' :: rest5)))) := by rw [hr3]
    _ = line.takeWhile isWS ++
        ('-' :: (w1 ++ (qh ++ (host0 ++ ':' :: (cd ++ rest6))))) := by
          rw [hr5]
    _ = line.takeWhile isWS ++
        ('-' :: (w1 ++ (qh ++ (host0 ++ ':' :: (cd ++ (pr ++ rest7)))))) := by
          rw [hr6]
    _ = (line.takeWhile isWS ++ '-' :: (w1 ++ qh ++ host0 ++ [':'])) ++
        (cd ++ pr) ++ rest7 := by simp

theorem isQuoteC_cases {c : Char} (h : isQuoteC c = true) :
    c = '\'' ∨ c = '"' := by
  simpa [isQuoteC] using h

theorem portParseBody_norm (ind : List Char) (q0 : Option Char)
    (rest5 : List Char) :
    portParseBody ind q0 ('0' :: ':' :: rest5) =
      portParseCont ind q0 ['0'] rest5 := by
  have h1 : Char.isDigit '0' = true := by decide
  have h2 : Char.isDigit ':' = false := by decide
  unfold portParseBody
  rw [show ('0' :: ':' :: rest5).takeWhile Char.isDigit = ['0'] by
      simp [List.takeWhile_cons, h1, h2],
    show ('0' :: ':' :: rest5).dropWhile Char.isDigit = ':' :: rest5 by
      simp [List.dropWhile_cons, h1, h2]]
  rw [if_neg (by decide : ¬(['0'] : List Char) = [])]
  rfl

theorem portParseCont_norm (ind : List Char) (q0 : Option Char)
    (host cd rest6 : List Char) (hcdne : cd ≠ [])
    (hcddig : cd.all Char.isDigit = true)
    (h1 : rest6.takeWhile Char.isDigit = [])
    (h2 : rest6.dropWhile Char.isDigit = rest6) :
    portParseCont ind q0 host (cd ++ rest6) =
      portParseTrail ind q0 host cd rest6 := by
  unfold portParseCont
  rw [takeWhileL_append_all rest6 hcddig, h1, List.append_nil,
    dropWhileL_append_all rest6 hcddig, h2, if_neg hcdne]

theorem portParseTrail_norm_noproto (ind : List Char) (q0 : Option Char)
    (host cd tail : List Char)
    (htail : tail = [] ∨ ∃ qc, tail = [qc] ∧ isQuoteC qc = true) :
    portParseTrail ind q0 host cd tail = portParseEnd ind q0 host cd tail := by
  rcases htail with rfl | ⟨qc, rfl, hqc⟩
  · rfl
  · unfold portParseTrail
    rcases isQuoteC_cases hqc with rfl | rfl <;> rfl

theorem portParseTrail_norm_proto (ind : List Char) (q0 : Option Char)
    (host cd w tail : List Char) (hwne : w ≠ [])
    (hww : w.all isWordC = true)
    (htail : tail = [] ∨ ∃ qc, tail = [qc] ∧ isQuoteC qc = true) :
    portParseTrail ind q0 host cd ('/' :: (w ++ tail)) =
      portParseEnd ind q0 host (cd ++ '/' :: w) tail := by
  have hw1 : (w ++ tail).takeWhile isWordC = w := by
    rcases htail with rfl | ⟨qc, rfl, hqc⟩
    · rw [List.append_nil, takeWhileL_all hww]
    · rw [takeWhileL_append_all _ hww,
        takeWhileL_cons_neg _ (by
          rcases isQuoteC_cases hqc with rfl | rfl <;> decide),
        List.append_nil]
  have hw2 : (w ++ tail).dropWhile isWordC = tail := by
    rcases htail with rfl | ⟨qc, rfl, hqc⟩
    · rw [List.append_nil, dropWhileL_eq_drop, takeWhileL_all hww,
        List.drop_length]
    · rw [dropWhileL_append_all _ hww,
        dropWhileL_cons_neg _ (by
          rcases isQuoteC_cases hqc with rfl | rfl <;> decide)]
  unfold portParseTrail
  rw [show (match ('/' :: (w ++ tail) : List Char) with
      | '/' :: r =>
        if r.takeWhile isWordC = [] then portParseEnd ind q0 host cd ('/' :: (w ++ tail))
        else portParseEnd ind q0 host (cd ++ '/' :: r.takeWhile isWordC)
          (r.dropWhile isWordC)
      | _ => portParseEnd ind q0 host cd ('/' :: (w ++ tail))) =
      if (w ++ tail).takeWhile isWordC = [] then
        portParseEnd ind q0 host cd ('/' :: (w ++ tail))
      else portParseEnd ind q0 host (cd ++ '/' :: (w ++ tail).takeWhile isWordC)
        ((w ++ tail).dropWhile isWordC) from rfl]
  rw [hw1, hw2, if_neg hwne]

/-- The optional opening/closing quote as a (possibly empty) list. -/
def qheadOf (q : Option Char) : List Char :=
  match q with | some qc => [qc] | none => []

theorem portParseEnd_norm (ind : List Char) (q0 : Option Char)
    (host cont : List Char)
    (hq : ∀ qc, q0 = some qc → isQuoteC qc = true) :
    portParseEnd ind q0 host cont (qheadOf q0) = some (ind, q0, host, cont) := by
  rcases q0 with - | qc
  · rfl
  · show (if qc = qc ∧ (([] : List Char).all isWS) = true then
        some (ind, some qc, host, cont) else none) =
        some (ind, some qc, host, cont)
    rw [if_pos ⟨rfl, rfl⟩]

/-- Re-parsing a normalized port line succeeds with host `0` and the same
indent, quote and container part. -/
theorem portParse_normalized (ind : List Char) (qopt : Option Char)
    (cd pr : List Char) (hindws : ind.all isWS = true)
    (hq : ∀ qc, qopt = some qc → isQuoteC qc = true)
    (hcdne : cd ≠ []) (hcddig : cd.all Char.isDigit = true)
    (hpr : pr = [] ∨ ∃ w, pr = '/' :: w ∧ w ≠ [] ∧ w.all isWordC = true) :
    portParse (ind ++ ('-' :: ' ' :: qheadOf qopt)
      ++ ('0' :: ':' :: (cd ++ pr)) ++ qheadOf qopt) =
      some (ind, qopt, ['0'], cd ++ pr) := by
  have hqtail : qheadOf qopt = [] ∨
      ∃ qc, qheadOf qopt = [qc] ∧ isQuoteC qc = true := by
    rcases qopt with - | qc
    · exact Or.inl rfl
    · exact Or.inr ⟨qc, rfl, hq qc rfl⟩
  have hqnws : ∀ c ∈ qheadOf qopt, isWS c = false := by
    rcases hqtail with he | ⟨qc, he, hqc⟩ <;> rw [he]
    · intro c hc; cases hc
    · intro c hc
      rw [List.mem_singleton.mp hc]
      rcases isQuoteC_cases hqc with rfl | rfl <;> decide
  have hqnd : ∀ c ∈ qheadOf qopt, Char.isDigit c = false := by
    rcases hqtail with he | ⟨qc, he, hqc⟩ <;> rw [he]
    · intro c hc; cases hc
    · intro c hc
      rw [List.mem_singleton.mp hc]
      rcases isQuoteC_cases hqc with rfl | rfl <;> decide
  have hX : ind ++ ('-' :: ' ' :: qheadOf qopt)
      ++ ('0' :: ':' :: (cd ++ pr)) ++ qheadOf qopt =
      ind ++ '-' :: (' ' :: (qheadOf qopt ++
        ('0' :: ':' :: (cd ++ (pr ++ qheadOf qopt))))) := by
    simp
  rw [hX]
  have hdw := dropWhileL_append_stop (p := isWS)
    ('-' :: (' ' :: (qheadOf qopt ++
      ('0' :: ':' :: (cd ++ (pr ++ qheadOf qopt)))))).tail
    (u := ind) (c := '-') hindws (by decide)
  unfold portParse
  rw [dropWhileL_append_stop _ hindws (by decide),
    takeWhileL_append_stop _ hindws (by decide)]
  rw [show (match ('-' :: (' ' :: (qheadOf qopt ++
      ('0' :: ':' :: (cd ++ (pr ++ qheadOf qopt)))))) with
      | '-' :: rest1 => portParseAfterDash ind (rest1.dropWhile isWS)
      | _ => none) =
      portParseAfterDash ind ((' ' :: (qheadOf qopt ++
        ('0' :: ':' :: (cd ++ (pr ++ qheadOf qopt))))).dropWhile isWS)
      from rfl]
  have hq2 : (' ' :: (qheadOf qopt ++
      ('0' :: ':' :: (cd ++ (pr ++ qheadOf qopt))))).dropWhile isWS =
      qheadOf qopt ++ ('0' :: ':' :: (cd ++ (pr ++ qheadOf qopt))) := by
    rw [List.dropWhile_cons, if_pos (by decide)]
    rcases hqtail with he | ⟨qc, he, hqc⟩ <;> rw [he]
    · exact dropWhileL_cons_neg _ (by decide)
    · rw [List.singleton_append,
        dropWhileL_cons_neg _ (by
          rcases isQuoteC_cases hqc with rfl | rfl <;> decide)]
  rw [hq2]
  have hbody : portParseAfterDash ind
      (qheadOf qopt ++ ('0' :: ':' :: (cd ++ (pr ++ qheadOf qopt)))) =
      portParseBody ind qopt
        ('0' :: ':' :: (cd ++ (pr ++ qheadOf qopt))) := by
    rcases qopt with - | qc
    · rfl
    · show (if isQuoteC qc = true then
          portParseBody ind (some qc)
            ('0' :: ':' :: (cd ++ (pr ++ [qc])))
        else portParseBody ind none
          (qc :: '0' :: ':' :: (cd ++ (pr ++ [qc])))) =
        portParseBody ind (some qc)
          ('0' :: ':' :: (cd ++ (pr ++ qheadOf (some qc))))
      rw [if_pos (hq qc rfl)]
      rfl
  rw [hbody, portParseBody_norm]
  have hnd1 : (pr ++ qheadOf qopt).takeWhile Char.isDigit = [] := by
    rcases hpr with rfl | ⟨w, rfl, -, -⟩
    · rw [List.nil_append]
      rcases hqtail with he | ⟨qc, he, hqc⟩ <;> rw [he]
      · rfl
      · exact takeWhileL_cons_neg _ (by
          rcases isQuoteC_cases hqc with rfl | rfl <;> decide)
    · rw [List.cons_append]
      exact takeWhileL_cons_neg _ (by decide)
  have hnd2 : (pr ++ qheadOf qopt).dropWhile Char.isDigit =
      pr ++ qheadOf qopt := by
    rcases hpr with rfl | ⟨w, rfl, -, -⟩
    · rw [List.nil_append]
      rcases hqtail with he | ⟨qc, he, hqc⟩ <;> rw [he]
      · rfl
      · exact dropWhileL_cons_neg _ (by
          rcases isQuoteC_cases hqc with rfl | rfl <;> decide)
    · rw [List.cons_append]
      exact dropWhileL_cons_neg _ (by decide)
  rw [portParseCont_norm ind qopt ['0'] cd (pr ++ qheadOf qopt) hcdne hcddig
    hnd1 hnd2]
  rcases hpr with rfl | ⟨w, rfl, hwne, hww⟩
  · rw [List.nil_append,
      portParseTrail_norm_noproto ind qopt ['0'] cd _ hqtail,
      portParseEnd_norm ind qopt ['0'] cd hq]
    rw [show cd ++ ([] : List Char) = cd from List.append_nil cd]
  · rw [List.cons_append,
      portParseTrail_norm_proto ind qopt ['0'] cd w _ hwne hww hqtail,
      portParseEnd_norm ind qopt ['0'] (cd ++ '/' :: w) hq]

/-- The rewritten form of a line whose port binding matches. -/
theorem patchPortLine_eq_of_some {line ind : List Char} {qopt : Option Char}
    {host cont : List Char}
    (h : portParse line = some (ind, qopt, host, cont)) :
    patchPortLine line =
      ind ++ ('-' :: ' ' :: qheadOf qopt) ++ ('0' :: ':' :: cont)
        ++ qheadOf qopt := by
  unfold patchPortLine
  rw [h]
  rcases qopt with - | qc <;> rfl

/-- A line with no port-binding match passes through unchanged. -/
theorem patchPortLine_id_of_none {line : List Char}
    (h : portParse line = none) : patchPortLine line = line := by
  unfold patchPortLine
  rw [h]

/-- A line with no `container_name` match passes through unchanged. -/
theorem patchCnLine_id_of_none {job_id line : List Char}
    (h : cnParse line = none) : patchCnLine job_id line = line := by
  unfold patchCnLine
  rw [h]

/-- Appending the optional closing quote preserves absence of a
quote-free pattern. -/
theorem containsL_append_qtail {p cont qh : List Char}
    (hqtail : qh = [] ∨ ∃ qc, qh = [qc] ∧ isQuoteC qc = true)
    (hnoq : ∀ c ∈ p, isQuoteC c = false) (hpne : p ≠ [])
    (h : containsL p cont = false) :
    containsL p (cont ++ qh) = false := by
  rcases hqtail with rfl | ⟨qc, rfl, hqc⟩
  · rw [List.append_nil]; exact h
  · cases hc : containsL p (cont ++ [qc]) with
    | false => rfl
    | true =>
      exfalso
      rcases containsL_append_cases cont hc with h1 | h1 | ⟨j, hj, hlen, ht, hd⟩
      · rw [h1] at h; cases h
      · cases p with
        | nil => exact hpne rfl
        | cons a p' =>
          have ha : a = qc := List.mem_singleton.mp
            (mem_of_containsL h1 a (List.mem_cons_self _ _))
          have hfa := hnoq a (List.mem_cons_self _ _)
          rw [ha, hqc] at hfa
          cases hfa
      · cases hdk : p.drop (cont.length - j) with
        | nil =>
          have hlen2 := congrArg List.length hdk
          rw [List.length_drop] at hlen2
          simp at hlen2
          omega
        | cons b rest =>
          rw [hdk] at hd
          obtain ⟨hb, -⟩ := prefixL_cons.mp hd
          have hbp : b ∈ p := List.drop_subset _ p
            (hdk ▸ List.mem_cons_self b rest)
          have hfb := hnoq b hbp
          rw [hb, hqc] at hfb
          cases hfb

/-- `container_name:` is never a prefix of a dash line. -/
theorem cnLit_prefixL_dash (X : List Char) :
    prefixL cnLit ('-' :: X) = false := by
  cases hpc : prefixL cnLit ('-' :: X) with
  | false => rfl
  | true =>
    rw [show cnLit = 'c' :: "ontainer_name:".data from rfl] at hpc
    obtain ⟨h1, -⟩ := prefixL_cons.mp hpc
    exact absurd h1 (by decide)

/-- The port rewrite preserves absence of `shared_net`. -/
theorem port_preserves_sharedNet_absence {l : List Char}
    (h : containsL NETWORK_LITERAL l = false) :
    containsL NETWORK_LITERAL (patchPortLine l) = false := by
  cases hp : portParse l with
  | none => rw [patchPortLine_id_of_none hp]; exact h
  | some out =>
    obtain ⟨ind, qopt, host, cont⟩ := out
    obtain ⟨hind, hq, -, -, -, pre, post, hinf⟩ := portParse_some_facts hp
    have hqtail : qheadOf qopt = [] ∨
        ∃ qc, qheadOf qopt = [qc] ∧ isQuoteC qc = true := by
      rcases qopt with - | qc
      · exact Or.inl rfl
      · exact Or.inr ⟨qc, rfl, hq qc rfl⟩
    have hcont : containsL NETWORK_LITERAL cont = false := by
      cases hc : containsL NETWORK_LITERAL cont with
      | false => rfl
      | true =>
        rw [hinf, containsL_of_infix hc] at h
        cases h
    have hcq : containsL NETWORK_LITERAL (cont ++ qheadOf qopt) = false :=
      containsL_append_qtail hqtail (by decide) (by decide) hcont
    have hsind : ('s' : Char) ∉ ind := by
      intro hm
      rw [hind] at hm
      have := List.all_eq_true.mp (all_takeWhileL isWS l) _ hm
      exact absurd this (by decide)
    have hsq : ('s' : Char) ∉ qheadOf qopt := by
      rcases hqtail with he | ⟨qc, he, hqc⟩ <;> rw [he]
      · intro hm; cases hm
      · intro hm
        rw [← List.mem_singleton.mp hm] at hqc
        exact absurd hqc (by decide)
    rw [patchPortLine_eq_of_some hp]
    rw [show ind ++ ('-' :: ' ' :: qheadOf qopt) ++ ('0' :: ':' :: cont)
        ++ qheadOf qopt =
        ind ++ ('-' :: ' ' :: (qheadOf qopt ++
          ('0' :: ':' :: (cont ++ qheadOf qopt)))) from by simp]
    refine containsL_append_eq_false ind hsind ?_
    refine containsL_cons_eq_false (by decide) ?_
    refine containsL_cons_eq_false (by decide) ?_
    refine containsL_append_eq_false (qheadOf qopt) hsq ?_
    refine containsL_cons_eq_false (by decide) ?_
    refine containsL_cons_eq_false (by decide) ?_
    exact hcq

/-- The port rewrite never creates a `container_name` match. -/
theorem cnParse_port_output_none {l : List Char} (h : cnParse l = none) :
    cnParse (patchPortLine l) = none := by
  cases hp : portParse l with
  | none => rw [patchPortLine_id_of_none hp]; exact h
  | some out =>
    obtain ⟨ind, qopt, host, cont⟩ := out
    obtain ⟨hind, -, -, -, -, -⟩ := portParse_some_facts hp
    have hindws : ind.all isWS = true := by
      rw [hind]; exact all_takeWhileL _ _
    rw [patchPortLine_eq_of_some hp]
    rw [show ind ++ ('-' :: ' ' :: qheadOf qopt) ++ ('0' :: ':' :: cont)
        ++ qheadOf qopt =
        ind ++ '-' :: (' ' :: (qheadOf qopt ++
          ('0' :: ':' :: (cont ++ qheadOf qopt)))) from by simp]
    unfold cnParse
    split
    · next hand =>
      exfalso
      rw [dropWhileL_append_stop _ hindws (by decide),
        cnLit_prefixL_dash] at hand
      exact Bool.false_ne_true hand.1
    · rfl

/-- The port rewrite is idempotent. -/
theorem patchPortLine_idem (line : List Char) :
    patchPortLine (patchPortLine line) = patchPortLine line := by
  cases h : portParse line with
  | none => simp only [patchPortLine_id_of_none h]
  | some out =>
    obtain ⟨ind, qopt, host, cont⟩ := out
    obtain ⟨hind, hq, -, -, ⟨cd, pr, hcont, hcdne, hcddig, hpr⟩, -⟩ :=
      portParse_some_facts h
    have hindws : ind.all isWS = true := by
      rw [hind]; exact all_takeWhileL _ _
    have h1 : patchPortLine line =
        ind ++ ('-' :: ' ' :: qheadOf qopt) ++ ('0' :: ':' :: cont)
          ++ qheadOf qopt := patchPortLine_eq_of_some h
    have h2 : portParse (patchPortLine line) =
        some (ind, qopt, ['0'], cont) := by
      rw [h1, hcont]
      exact portParse_normalized ind qopt cd pr hindws hq hcdne hcddig hpr
    rw [patchPortLine_eq_of_some h2, h1]

/-- Each compose-file rewrite pass is idempotent on lines that carry no
`container_name` entry (for a hex job id). -/
theorem patchComposeLine_idem {job_id line : List Char}
    (hid : job_id.all isHexDigit = true) (hcn : cnParse line = none) :
    patchComposeLine job_id (patchComposeLine job_id line) =
      patchComposeLine job_id line := by
  have hcn0 : cnParse (replaceAll NETWORK_LITERAL (job_network job_id)
      line) = none := cnParse_replaceAll_none hid hcn
  unfold patchComposeLine
  rw [patchCnLine_id_of_none hcn0]
  rw [replaceAll_id_of_not_containsL (port_preserves_sharedNet_absence
    (sharedNet_absent_after_replace hid line))]
  rw [patchCnLine_id_of_none (cnParse_port_output_none hcn0)]
  exact patchPortLine_idem _

/-- A successful `eatLit` decomposes the input. -/
theorem eatLit_some {lit s s' : List Char} (h : eatLit lit s = some s') :
    s = lit ++ s' := by
  unfold eatLit at h
  split at h
  · next hp =>
    rw [← Option.some.inj h]
    exact (prefixL_decomp hp).symm
  · cases h

/-- Stepping through one whitespace run and one literal of the chown
pattern: a character that is neither whitespace nor in the literal must
live in the remainder. -/
theorem mem_ws_lit_step {c : Char} {s s' lit : List Char}
    (hcws : isWS c = false) (hclit : c ∉ lit)
    (he : eatLit lit (s.dropWhile isWS) = some s')
    (hm : c ∈ s) : c ∈ s' := by
  rw [← List.takeWhile_append_dropWhile isWS s] at hm
  rcases List.mem_append.mp hm with hm1 | hm2
  · have := List.all_eq_true.mp (all_takeWhileL isWS s) _ hm1
    rw [this] at hcws
    cases hcws
  · rw [eatLit_some he] at hm2
    rcases List.mem_append.mp hm2 with hm3 | hm4
    · exact absurd hm3 hclit
    · exact hm4

/-- A line matched by the chown-removal pattern contains no `=`. -/
theorem chownLine_no_eq {l : List Char} (h : chownLineMatch l = true) :
    ('=' : Char) ∉ l := by
  unfold chownLineMatch at h
  split at h
  · cases h
  next s1 he1 =>
  split at h
  · cases h
  next s2 he2 =>
  split at h
  · cases h
  next s3 he3 =>
  split at h
  · cases h
  next s4 he4 =>
  split at h
  · cases h
  next s5 he5 =>
  intro hm
  have m1 := mem_ws_lit_step (by decide) (by decide) he1 hm
  have m2 := mem_ws_lit_step (by decide) (by decide) he2 m1
  have m3 := mem_ws_lit_step (by decide) (by decide) he3 m2
  have m4 := mem_ws_lit_step (by decide) (by decide) he4 m3
  have m5 := mem_ws_lit_step (by decide) (by decide) he5 m4
  have := List.all_eq_true.mp h _ m5
  exact absurd this (by decide)

/-- A replacement that fired leaves an occurrence of the replacement. -/
theorem containsL_replaceAllF_creates {p r : List Char} (hp : p ≠ []) :
    ∀ (f : Nat) (t : List Char), t.length ≤ f →
      containsL p t = true →
      containsL r (replaceAllF p r f t) = true := by
  intro f
  induction f with
  | zero =>
    intro t ht hc
    rw [List.length_eq_zero.mp (Nat.le_zero.mp ht),
      containsL_nil_of_ne hp] at hc
    cases hc
  | succ f ih =>
    intro t ht hc
    cases t with
    | nil => rw [containsL_nil_of_ne hp] at hc; cases hc
    | cons c cs =>
      by_cases hpre : prefixL p (c :: cs) = true
      · rw [replaceAllF_cons_pos r f hpre]
        exact containsL_of_prefixL (prefixL_append_right _ (prefixL_self r))
      · rw [replaceAllF_cons_neg r f
          (Bool.eq_false_iff.mpr fun hx => hpre hx)]
        rw [containsL_cons] at hc
        rcases Bool.or_eq_true_iff.mp hc with h' | h'
        · exact absurd h' hpre
        · have hcs : cs.length ≤ f := by
            simp at ht
            omega
          exact containsL_cons_of_containsL c (ih cs hcs h')

/-- After the `use_sudo` replacement, `use_sudo=True` is gone. -/
theorem useSudo_absent_after_replace (l : List Char) :
    containsL "use_sudo=True".data
      (replaceAll "use_sudo=True".data "use_sudo=False".data l) = false := by
  refine containsL_replaceAllF_self (by decide) (by decide) ?_ ?_
    l.length l (le_refl _)
  · decide
  · decide

/-- The `use_sudo` replacement cannot make a line match the chown
pattern. -/
theorem chown_no_match_after_replace {l : List Char}
    (h : chownLineMatch l = false) :
    chownLineMatch
      (replaceAll "use_sudo=True".data "use_sudo=False".data l) = false := by
  cases hc : containsL "use_sudo=True".data l with
  | false => rw [replaceAll_id_of_not_containsL hc]; exact h
  | true =>
    cases hm : chownLineMatch
        (replaceAll "use_sudo=True".data "use_sudo=False".data l) with
    | false => rfl
    | true =>
      have hr : containsL "use_sudo=False".data
          (replaceAll "use_sudo=True".data "use_sudo=False".data l) = true :=
        containsL_replaceAllF_creates (by decide) l.length l (le_refl _) hc
      have heq : ('=' : Char) ∈
          replaceAll "use_sudo=True".data "use_sudo=False".data l :=
        mem_of_containsL hr '=' (by decide)
      exact absurd heq (chownLine_no_eq hm)

/-- Mapping a function that fixes every member is the identity. -/
theorem map_id_of_fixed {α : Type} (f : α → α) :
    ∀ l : List α, (∀ x ∈ l, f x = x) → l.map f = l := by
  intro l
  induction l with
  | nil => intro _; rfl
  | cons a as ih =>
    intro h
    rw [List.map_cons, h a (List.mem_cons_self _ _),
      ih (fun x hx => h x (List.mem_cons_of_mem _ hx))]

/-- The git-utils rewrite is idempotent. -/
theorem patchGitUtilsContent_idem (lines : List (List Char)) :
    patchGitUtilsContent (patchGitUtilsContent lines) =
      patchGitUtilsContent lines := by
  unfold patchGitUtilsContent
  have hfix : ∀ x ∈ (lines.filter fun l => !chownLineMatch l).map
      (fun l => replaceAll "use_sudo=True".data "use_sudo=False".data l),
      (!chownLineMatch x) = true := by
    intro x hx
    obtain ⟨l, hl, rfl⟩ := List.mem_map.mp hx
    have hQ := (List.mem_filter.mp hl).2
    simp only [Bool.not_eq_true'] at hQ ⊢
    exact chown_no_match_after_replace hQ
  rw [List.filter_eq_self.mpr hfix]
  refine map_id_of_fixed _ _ ?_
  intro x hx
  obtain ⟨l, hl, rfl⟩ := List.mem_map.mp hx
  exact replaceAll_id_of_not_containsL (useSudo_absent_after_replace l)

/-- Pattern absence from head-character disjointness. -/
theorem containsL_eq_false_of_head_notin {a : Char} {p' u : List Char}
    (ha : a ∉ u) : containsL (a :: p') u = false := by
  have h := containsL_append_eq_false u ha
    (containsL_nil_of_ne (p := a :: p') (by simp))
  rwa [List.append_nil] at h

/-- Discharge the side condition of `containsL_replaceAllF_other` when the
replacement starts with a character not occurring in the pattern. -/
theorem hside_other_of_head_notin {pA : List Char} {rb : Char}
    (r' : List Char) (hnot : rb ∉ pA) :
    ∀ i, i < pA.length →
      prefixL ((pA.drop i).take (rb :: r').length) (rb :: r') = false := by
  intro i hi
  cases hd : pA.drop i with
  | nil =>
    exfalso
    have := List.length_drop i pA
    rw [hd] at this
    simp at this
    omega
  | cons d ds =>
    have hd_mem : d ∈ pA := by
      have : d ∈ pA.drop i := by rw [hd]; exact List.mem_cons_self _ _
      exact List.mem_of_mem_drop this
    rw [show ((d :: ds).take (rb :: r').length) =
        d :: ds.take r'.length by simp]
    refine Bool.eq_false_iff.mpr fun hp => ?_
    obtain ⟨rfl, -⟩ := prefixL_cons.mp hp
    exact absurd hd_mem hnot

/-- An occurrence of a composite pattern contains an occurrence of its
middle part. -/
theorem containsL_sub (pre b post : List Char) {s : List Char}
    (h : containsL (pre ++ b ++ post) s = true) : containsL b s = true := by
  induction s with
  | nil =>
    rw [containsL_nil, List.isEmpty_iff, List.append_eq_nil,
      List.append_eq_nil] at h
    rw [h.1.2]
    rfl
  | cons c cs ih =>
    rw [containsL_cons] at h
    rcases Bool.or_eq_true_iff.mp h with h' | h'
    · have hdec := prefixL_decomp h'
      rw [← hdec,
        show (pre ++ b ++ post) ++
            (c :: cs).drop (pre ++ b ++ post).length =
          pre ++ (b ++ (post ++
            (c :: cs).drop (pre ++ b ++ post).length)) from by simp]
      exact containsL_append_left pre
        (containsL_of_prefixL (prefixL_append_right _ (prefixL_self b)))
    · exact containsL_cons_of_containsL c (ih h')

/-- The per-line Python rewrite: the double-quoted form, then the
single-quoted form (lines 303–306). -/
def pyLine (job_id l : List Char) : List Char :=
  replaceAll ('\'' :: NETWORK_LITERAL ++ ['\''])
    ('\'' :: job_network job_id ++ ['\''])
    (replaceAll ('"' :: NETWORK_LITERAL ++ ['"'])
      ('"' :: job_network job_id ++ ['"']) l)

theorem patchPyContent_eq (job_id : List Char) (lines : List (List Char)) :
    patchPyContent job_id lines =
      if lines.any (fun l => containsL NETWORK_LITERAL l) then
        lines.map (pyLine job_id)
      else lines := rfl

/-- No double-quoted `shared_net` remains after the double-quoted
replacement, when the line has no `"shared_net"shared_net"` chain. -/
theorem dq_absent_after_replace {job_id l : List Char}
    (hid : job_id.all isHexDigit = true)
    (hchain : containsL (quoteChain '"' NETWORK_LITERAL) l = false) :
    containsL ('"' :: NETWORK_LITERAL ++ ['"'])
      (replaceAll ('"' :: NETWORK_LITERAL ++ ['"'])
        ('"' :: job_network job_id ++ ['"']) l) = false := by
  have hqn : ('"' : Char) ∉ job_network job_id :=
    quote_not_mem_job_network hid (by decide)
  exact containsL_replaceAllF_quoted (q := '"') (by decide) (by decide)
    (fun hm => hqn hm) l.length l (le_refl _) hchain

/-- Single-quoted analogue. -/
theorem sq_absent_after_replace {job_id l : List Char}
    (hid : job_id.all isHexDigit = true)
    (hchain : containsL (quoteChain '\'' NETWORK_LITERAL) l = false) :
    containsL ('\'' :: NETWORK_LITERAL ++ ['\''])
      (replaceAll ('\'' :: NETWORK_LITERAL ++ ['\''])
        ('\'' :: job_network job_id ++ ['\'']) l) = false := by
  have hqn : ('\'' : Char) ∉ job_network job_id :=
    quote_not_mem_job_network hid (by decide)
  exact containsL_replaceAllF_quoted (q := '\'') (by decide) (by decide)
    (fun hm => hqn hm) l.length l (le_refl _) hchain

/-- After the full Python line rewrite, neither quoted form of
`shared_net` remains (chain-free lines, hex job id). -/
theorem pyLine_no_quoted {job_id l : List Char}
    (hid : job_id.all isHexDigit = true)
    (hD : containsL (quoteChain '"' NETWORK_LITERAL) l = false)
    (hS : containsL (quoteChain '\'' NETWORK_LITERAL) l = false) :
    containsL ('"' :: NETWORK_LITERAL ++ ['"']) (pyLine job_id l) = false ∧
    containsL ('\'' :: NETWORK_LITERAL ++ ['\''])
      (pyLine job_id l) = false := by
  have hq_rs : ('"' : Char) ∉ '\'' :: (job_network job_id ++ ['\'']) := by
    intro hm
    rcases List.mem_cons.mp hm with h1 | h1
    · exact absurd h1 (by decide)
    · rcases List.mem_append.mp h1 with h2 | h2
      · exact quote_not_mem_job_network hid (by decide) h2
      · exact absurd h2 (by decide)
  have hq_rd : ('\'' : Char) ∉ '"' :: (job_network job_id ++ ['"']) := by
    intro hm
    rcases List.mem_cons.mp hm with h1 | h1
    · exact absurd h1 (by decide)
    · rcases List.mem_append.mp h1 with h2 | h2
      · exact quote_not_mem_job_network hid (by decide) h2
      · exact absurd h2 (by decide)
  have a1 := dq_absent_after_replace hid hD
  constructor
  · exact containsL_replaceAllF_other
      (containsL_eq_false_of_head_notin hq_rs)
      (hstrad_of_head_notin hq_rs)
      (hside_other_of_head_notin _ (by decide))
      _ _ a1
  · have c1 : containsL (quoteChain '\'' NETWORK_LITERAL)
        (replaceAll ('"' :: NETWORK_LITERAL ++ ['"'])
          ('"' :: job_network job_id ++ ['"']) l) = false :=
      containsL_replaceAllF_other
        (containsL_eq_false_of_head_notin hq_rd)
        (hstrad_of_head_notin hq_rd)
        (hside_other_of_head_notin _ (by decide))
        _ _ hS
    exact sq_absent_after_replace hid c1

/-- The Python line rewrite is idempotent on chain-free lines. -/
theorem pyLine_idem {job_id l : List Char}
    (hid : job_id.all isHexDigit = true)
    (hD : containsL (quoteChain '"' NETWORK_LITERAL) l = false)
    (hS : containsL (quoteChain '\'' NETWORK_LITERAL) l = false) :
    pyLine job_id (pyLine job_id l) = pyLine job_id l := by
  obtain ⟨b1, c2⟩ := pyLine_no_quoted hid hD hS
  show replaceAll ('\'' :: NETWORK_LITERAL ++ ['\''])
      ('\'' :: job_network job_id ++ ['\''])
      (replaceAll ('"' :: NETWORK_LITERAL ++ ['"'])
        ('"' :: job_network job_id ++ ['"']) (pyLine job_id l)) =
    pyLine job_id l
  rw [replaceAll_id_of_not_containsL b1,
    replaceAll_id_of_not_containsL c2]

/-- The per-file Python rewrite is idempotent on chain-free files. -/
theorem patchPyContent_idem {job_id : List Char} {lines : List (List Char)}
    (hid : job_id.all isHexDigit = true)
    (hD : ∀ l ∈ lines, containsL (quoteChain '"' NETWORK_LITERAL) l = false)
    (hS : ∀ l ∈ lines,
      containsL (quoteChain '\'' NETWORK_LITERAL) l = false) :
    patchPyContent job_id (patchPyContent job_id lines) =
      patchPyContent job_id lines := by
  by_cases hg : lines.any (fun l => containsL NETWORK_LITERAL l) = true
  · have h1 : patchPyContent job_id lines = lines.map (pyLine job_id) := by
      rw [patchPyContent_eq, if_pos hg]
    rw [h1, patchPyContent_eq]
    split
    · refine map_id_of_fixed _ _ ?_
      intro x hx
      obtain ⟨l, hl, rfl⟩ := List.mem_map.mp hx
      exact pyLine_idem hid (hD l hl) (hS l hl)
    · rfl
  · have h1 : patchPyContent job_id lines = lines := by
      rw [patchPyContent_eq, if_neg hg]
    rw [h1]
    exact h1

/-- The per-file compose rewrite is idempotent when no line carries a
`container_name` entry. -/
theorem patchComposeContent_idem {job_id : List Char}
    (hid : job_id.all isHexDigit = true) {lines : List (List Char)}
    (h : ∀ l ∈ lines, cnParse l = none) :
    patchComposeContent job_id (patchComposeContent job_id lines) =
      patchComposeContent job_id lines := by
  unfold patchComposeContent
  refine map_id_of_fixed _ _ ?_
  intro x hx
  obtain ⟨l, hl, rfl⟩ := List.mem_map.mp hx
  exact patchComposeLine_idem hid (h l hl)

/-- Per-file safety for re-patching (the amended C2 hypothesis): in a
compose file no line's whitespace-stripped content starts with the
literal `container_name:` — since `\s` in the source regex
`^(\s*)container_name:\s*(.+)$` also matches newlines under
`re.MULTILINE`, every match of that regex (including one whose
surrounding whitespace spans line breaks) puts the literal on a line
with only whitespace before it, so this condition rules the rewrite out
entirely; Python files carry no quoted overlap chain
`q shared_net q shared_net q`; git-utils and other files are always
safe. -/
def safeForRepatch (f : PatchFile) : Bool :=
  match f.kind with
  | .composeFile => f.lines.all fun l => !prefixL cnLit (l.dropWhile isWS)
  | .pyScanned => f.lines.all fun l =>
      !containsL (quoteChain '"' NETWORK_LITERAL) l &&
      !containsL (quoteChain '\'' NETWORK_LITERAL) l
  | _ => true

/-- A line not starting (after whitespace) with `container_name:` has no
`container_name` match. -/
theorem cnParse_none_of_no_prefix {l : List Char}
    (h : prefixL cnLit (l.dropWhile isWS) = false) : cnParse l = none := by
  have hno : ¬(prefixL cnLit (l.dropWhile isWS) = true ∧
      (l.dropWhile isWS).drop cnLit.length ≠ []) := by
    intro hand
    rw [h] at hand
    exact Bool.false_ne_true hand.1
  unfold cnParse
  rw [if_neg hno]

/-- Re-patching a safe file changes nothing. -/
theorem patchFile_idem {job_id : List Char} {f : PatchFile}
    (hid : job_id.all isHexDigit = true) (hsafe : safeForRepatch f = true) :
    patchFile job_id (patchFile job_id f) = patchFile job_id f := by
  obtain ⟨kind, lines⟩ := f
  cases kind with
  | other => rfl
  | gitUtils =>
    show (⟨PatchFileKind.gitUtils,
      patchGitUtilsContent (patchGitUtilsContent lines)⟩ : PatchFile) =
      ⟨PatchFileKind.gitUtils, patchGitUtilsContent lines⟩
    rw [patchGitUtilsContent_idem]
  | composeFile =>
    have hsafe' : ∀ l ∈ lines, cnParse l = none := by
      intro l hl
      have h := List.all_eq_true.mp hsafe l hl
      rw [Bool.not_eq_true'] at h
      exact cnParse_none_of_no_prefix h
    show (⟨PatchFileKind.composeFile, patchComposeContent job_id
      (patchComposeContent job_id lines)⟩ : PatchFile) =
      ⟨PatchFileKind.composeFile, patchComposeContent job_id lines⟩
    rw [patchComposeContent_idem hid hsafe']
  | pyScanned =>
    have hDS : ∀ l ∈ lines,
        containsL (quoteChain '"' NETWORK_LITERAL) l = false ∧
        containsL (quoteChain '\'' NETWORK_LITERAL) l = false := by
      intro l hl
      have h := List.all_eq_true.mp hsafe l hl
      rw [Bool.and_eq_true, Bool.not_eq_true', Bool.not_eq_true'] at h
      exact h
    show (⟨PatchFileKind.pyScanned, patchPyContent job_id
      (patchPyContent job_id lines)⟩ : PatchFile) =
      ⟨PatchFileKind.pyScanned, patchPyContent job_id lines⟩
    rw [patchPyContent_idem hid
      (fun l hl => (hDS l hl).1)
      (fun l hl => (hDS l hl).2)]

/-- **C2** (amended): for a hexadecimal job id, applying
`patch_clone_for_isolation` twice equals applying it once on every clone
whose compose files have no line starting (after whitespace) with
`container_name:` — which, `\s` matching newlines, rules out every
match of the `container_name` regex, single-line or spanning lines —
and whose Python files contain no quoted `shared_net` overlap chain.
(The unrestricted claim fails: see the counterexample on a compose file
with a `container_name` entry.) -/
theorem patch_clone_idempotent_on_safe (job_id : List Char)
    (clone : List PatchFile) (hid : job_id.all isHexDigit = true)
    (hsafe : ∀ f ∈ clone, safeForRepatch f = true) :
    patch_clone_for_isolation job_id
      (patch_clone_for_isolation job_id clone).2 =
      patch_clone_for_isolation job_id clone := by
  have hmap : (clone.map (patchFile job_id)).map (patchFile job_id) =
      clone.map (patchFile job_id) := by
    refine map_id_of_fixed _ _ ?_
    intro x hx
    obtain ⟨g, hg, rfl⟩ := List.mem_map.mp hx
    exact patchFile_idem hid (hsafe g hg)
  show (job_network job_id,
      (clone.map (patchFile job_id)).map (patchFile job_id)) =
    (job_network job_id, clone.map (patchFile job_id))
  rw [hmap]

/-- A clone with a compose file (ports, network), a Python file with a
quoted network literal, a git-utils file and an untouched file. -/
def safeCloneEx : List PatchFile :=
  [⟨.composeFile,
      ["services:".data,
       "  app:".data,
       "    ports:".data,
       "      - \"8080:80\"".data,
       "    networks:".data,
       "      - shared_net".data]⟩,
   ⟨.pyScanned, ["NETWORK = \"shared_net\"".data]⟩,
   ⟨.gitUtils, ["    repo.clone(use_sudo=True)".data]⟩,
   ⟨.other, ["shared_net stays here".data]⟩]

theorem patch_clone_idempotent_on_safe_witness :
    patch_clone_for_isolation jobIdEx
      (patch_clone_for_isolation jobIdEx safeCloneEx).2 =
      patch_clone_for_isolation jobIdEx safeCloneEx :=
  patch_clone_idempotent_on_safe jobIdEx safeCloneEx (by decide) (by decide)

/-- Inversion of a successful `container_name` match. -/
theorem cnParse_some_inv {l ind val : List Char}
    (h : cnParse l = some (ind, val)) :
    ind = l.takeWhile isWS ∧ val = (l.dropWhile isWS).drop cnLit.length ∧
    prefixL cnLit (l.dropWhile isWS) = true ∧ val ≠ [] := by
  unfold cnParse at h
  split at h
  · next hc =>
    have hpair := Option.some.inj h
    have h1 : ind = l.takeWhile isWS := (congrArg Prod.fst hpair).symm
    have h2 : val = (l.dropWhile isWS).drop cnLit.length :=
      (congrArg Prod.snd hpair).symm
    exact ⟨h1, h2, hc.1, by rw [h2]; exact hc.2⟩
  · cases h

/-- The rewritten form of a matching `container_name` line. -/
theorem patchCnLine_eq_of_some {job_id l ind val : List Char}
    (h : cnParse l = some (ind, val)) :
    patchCnLine job_id l =
      ind ++ cnLit ++ [' '] ++ composePrefixL job_id ++ ['-'] ++
        stripEnds isQuoteC (stripEnds isWS val) := by
  unfold patchCnLine
  rw [h]

/-- Re-parsing a rewritten `container_name` line: same indent, value
`<space>bb_<JobId>-<name>`. -/
theorem cnParse_patchCnLine {job_id l ind val : List Char}
    (h : cnParse l = some (ind, val)) :
    cnParse (patchCnLine job_id l) =
      some (ind, ' ' :: (composePrefixL job_id ++ ('-' ::
        stripEnds isQuoteC (stripEnds isWS val)))) := by
  obtain ⟨hind, -, -, -⟩ := cnParse_some_inv h
  have hindws : ind.all isWS = true := by
    rw [hind]; exact all_takeWhileL _ _
  rw [patchCnLine_eq_of_some h]
  rw [show ind ++ cnLit ++ [' '] ++ composePrefixL job_id ++ ['-'] ++
      stripEnds isQuoteC (stripEnds isWS val) =
      ind ++ ('c' :: ("ontainer_name:".data ++ (' ' :: (composePrefixL job_id
        ++ ('-' :: stripEnds isQuoteC (stripEnds isWS val)))))) from by
    simp [cnLit]]
  unfold cnParse
  rw [dropWhileL_append_stop _ hindws (by decide),
    takeWhileL_append_stop _ hindws (by decide)]
  rw [show ('c' :: ("ontainer_name:".data ++ (' ' :: (composePrefixL job_id
        ++ ('-' :: stripEnds isQuoteC (stripEnds isWS val)))))) =
      cnLit ++ (' ' :: (composePrefixL job_id
        ++ ('-' :: stripEnds isQuoteC (stripEnds isWS val)))) from rfl]
  have hg1 : prefixL cnLit (cnLit ++ (' ' :: (composePrefixL job_id
      ++ ('-' :: stripEnds isQuoteC (stripEnds isWS val))))) = true :=
    prefixL_append_right _ (prefixL_self cnLit)
  have hg2 : (cnLit ++ (' ' :: (composePrefixL job_id
      ++ ('-' :: stripEnds isQuoteC (stripEnds isWS val))))).drop
        cnLit.length =
      ' ' :: (composePrefixL job_id
        ++ ('-' :: stripEnds isQuoteC (stripEnds isWS val))) :=
    List.drop_left _ _
  rw [if_pos ⟨hg1, by rw [hg2]; exact fun hx => List.noConfusion hx⟩]
  rw [hg2]

/-- A rewritten `container_name` line is not a port binding. -/
theorem portParse_patchCnLine_none {job_id l ind val : List Char}
    (h : cnParse l = some (ind, val)) :
    portParse (patchCnLine job_id l) = none := by
  obtain ⟨hind, -, -, -⟩ := cnParse_some_inv h
  have hindws : ind.all isWS = true := by
    rw [hind]; exact all_takeWhileL _ _
  rw [patchCnLine_eq_of_some h]
  rw [show ind ++ cnLit ++ [' '] ++ composePrefixL job_id ++ ['-'] ++
      stripEnds isQuoteC (stripEnds isWS val) =
      ind ++ ('c' :: ("ontainer_name:".data ++ (' ' :: (composePrefixL job_id
        ++ ('-' :: stripEnds isQuoteC (stripEnds isWS val)))))) from by
    simp [cnLit]]
  unfold portParse
  rw [dropWhileL_append_stop _ hindws (by decide)]
  rfl

/-- The value of a rewritten `container_name` line starts with
`bb_<JobId>-` once its leading whitespace is dropped. -/
theorem cn_val_prefixed (job_id name : List Char) :
    prefixL (composePrefixL job_id ++ ['-'])
      ((' ' :: (composePrefixL job_id ++ ('-' :: name))).dropWhile isWS)
      = true := by
  rw [List.dropWhile_cons, if_pos (by decide)]
  have h1 : (composePrefixL job_id ++ ('-' :: name)).dropWhile isWS =
      composePrefixL job_id ++ ('-' :: name) :=
    dropWhileL_cons_neg _ (by decide)
  rw [h1]
  refine prefixL_append_compose (prefixL_append_right _
    (prefixL_self (composePrefixL job_id))) ?_
  rw [List.drop_left]
  exact prefixL_cons.mpr ⟨rfl, prefixL_nil _⟩

/-- Lines of a rewritten compose file satisfy the full rewrite
invariant: no `shared_net`, prefixed `container_name` values, zero host
ports. -/
theorem compose_line_invariant (job_id l : List Char)
    (hid : job_id.all isHexDigit = true) :
    containsL NETWORK_LITERAL (patchComposeLine job_id l) = false ∧
    (∀ ind val, cnParse (patchComposeLine job_id l) = some (ind, val) →
      prefixL (composePrefixL job_id ++ ['-']) (val.dropWhile isWS)
        = true) ∧
    (∀ ind qopt host cont,
      portParse (patchComposeLine job_id l) = some (ind, qopt, host, cont) →
      host = ['0']) := by
  refine ⟨port_preserves_sharedNet_absence
    (cn_preserves_sharedNet_absence hid
      (sharedNet_absent_after_replace hid l)), ?_, ?_⟩
  · intro ind val hparse
    unfold patchComposeLine at hparse
    rcases hc : cnParse
        (replaceAll NETWORK_LITERAL (job_network job_id) l) with - | p
    · rw [patchCnLine_id_of_none hc] at hparse
      rw [cnParse_port_output_none hc] at hparse
      cases hparse
    · obtain ⟨i0, v0⟩ := p
      rw [patchPortLine_id_of_none (portParse_patchCnLine_none hc)]
        at hparse
      rw [cnParse_patchCnLine hc] at hparse
      have hpair := Option.some.inj hparse
      have hval : val = ' ' :: (composePrefixL job_id ++ ('-' ::
          stripEnds isQuoteC (stripEnds isWS v0))) :=
        (congrArg Prod.snd hpair).symm
      rw [hval]
      exact cn_val_prefixed job_id _
  · intro ind qopt host cont hparse
    unfold patchComposeLine at hparse
    rcases hc : cnParse
        (replaceAll NETWORK_LITERAL (job_network job_id) l) with - | p
    · rw [patchCnLine_id_of_none hc] at hparse
      rcases hp : portParse
          (replaceAll NETWORK_LITERAL (job_network job_id) l) with - | q
      · rw [patchPortLine_id_of_none hp, hp] at hparse
        cases hparse
      · obtain ⟨i0, q0, h0, c0⟩ := q
        obtain ⟨hi0, hq0, -, -, ⟨cd, pr, hc0, hcdne, hcddig, hpr⟩, -⟩ :=
          portParse_some_facts hp
        have hi0ws : i0.all isWS = true := by
          rw [hi0]; exact all_takeWhileL _ _
        have h2 : portParse (patchPortLine
            (replaceAll NETWORK_LITERAL (job_network job_id) l)) =
            some (i0, q0, ['0'], c0) := by
          rw [patchPortLine_eq_of_some hp, hc0]
          exact portParse_normalized i0 q0 cd pr hi0ws hq0 hcdne hcddig hpr
        rw [h2] at hparse
        have hpair := Option.some.inj hparse
        exact (congrArg (fun x => x.2.2.1) hpair).symm
    · obtain ⟨i0, v0⟩ := p
      rw [patchPortLine_id_of_none (portParse_patchCnLine_none hc),
        portParse_patchCnLine_none hc] at hparse
      cases hparse

/-- Absence of the bare literal implies absence of its quoted forms. -/
theorem quoted_absent_of_NL_absent {q : Char} {l : List Char}
    (h : containsL NETWORK_LITERAL l = false) :
    containsL (q :: NETWORK_LITERAL ++ [q]) l = false := by
  cases hc : containsL (q :: NETWORK_LITERAL ++ [q]) l with
  | false => rfl
  | true =>
    rw [containsL_sub [q] NETWORK_LITERAL [q] hc] at h
    cases h

/-- The amended C3 hypothesis: Python files carry no quoted overlap
chain `q shared_net q shared_net q`; other files are unconstrained. -/
def pyChainFree (f : PatchFile) : Bool :=
  f.kind != PatchFileKind.pyScanned ||
    f.lines.all fun l =>
      !containsL (quoteChain '"' NETWORK_LITERAL) l &&
      !containsL (quoteChain '\'' NETWORK_LITERAL) l

/-- **C3** (amended): after `patch_clone_for_isolation` with a hex job
id, every compose file is free of `shared_net`, every `container_name`
value starts with `bb_<JobId>-`, and every matched port binding has host
port `0`; in Python files (without quoted overlap chains) both quoted
forms of `shared_net` are gone.  A bare, unquoted `shared_net` in a
Python file survives (see the counterexample), so the unrestricted
no-`shared_net` claim fails. -/
theorem rewrite_invariant (job_id : List Char) (clone : List PatchFile)
    (hid : job_id.all isHexDigit = true)
    (hpy : ∀ f ∈ clone, pyChainFree f = true) :
    ∀ f ∈ (patch_clone_for_isolation job_id clone).2,
      (f.kind = PatchFileKind.composeFile → ∀ l ∈ f.lines,
        containsL NETWORK_LITERAL l = false ∧
        (∀ ind val, cnParse l = some (ind, val) →
          prefixL (composePrefixL job_id ++ ['-']) (val.dropWhile isWS)
            = true) ∧
        (∀ ind qopt host cont,
          portParse l = some (ind, qopt, host, cont) → host = ['0'])) ∧
      (f.kind = PatchFileKind.pyScanned → ∀ l ∈ f.lines,
        containsL ('"' :: NETWORK_LITERAL ++ ['"']) l = false ∧
        containsL ('\'' :: NETWORK_LITERAL ++ ['\'']) l = false) := by
  intro f hf
  have hf' : f ∈ clone.map (patchFile job_id) := hf
  obtain ⟨g, hg, rfl⟩ := List.mem_map.mp hf'
  obtain ⟨kind, lines⟩ := g
  cases kind with
  | other => exact ⟨fun hk => (nomatch hk), fun hk => (nomatch hk)⟩
  | gitUtils => exact ⟨fun hk => (nomatch hk), fun hk => (nomatch hk)⟩
  | composeFile =>
    refine ⟨fun _ l hl => ?_, fun hk => (nomatch hk)⟩
    have hl' : l ∈ patchComposeContent job_id lines := hl
    obtain ⟨l0, hl0, rfl⟩ := List.mem_map.mp hl'
    exact compose_line_invariant job_id l0 hid
  | pyScanned =>
    refine ⟨fun hk => (nomatch hk), fun _ l hl => ?_⟩
    have hl' : l ∈ patchPyContent job_id lines := hl
    have hchains : ∀ l2 ∈ lines,
        containsL (quoteChain '"' NETWORK_LITERAL) l2 = false ∧
        containsL (quoteChain '\'' NETWORK_LITERAL) l2 = false := by
      have hp := hpy ⟨PatchFileKind.pyScanned, lines⟩ hg
      intro l2 hl2
      have h2 := List.all_eq_true.mp hp l2 hl2
      rw [Bool.and_eq_true, Bool.not_eq_true', Bool.not_eq_true'] at h2
      exact h2
    rw [patchPyContent_eq] at hl'
    by_cases hg2 : lines.any (fun l2 => containsL NETWORK_LITERAL l2) = true
    · rw [if_pos hg2] at hl'
      obtain ⟨l0, hl0, rfl⟩ := List.mem_map.mp hl'
      exact pyLine_no_quoted hid (hchains l0 hl0).1 (hchains l0 hl0).2
    · rw [if_neg hg2] at hl'
      have hNL : containsL NETWORK_LITERAL l = false := by
        have hfa := List.any_eq_false.mp (Bool.eq_false_iff.mpr hg2) l hl'
        exact Bool.eq_false_iff.mpr hfa
      exact ⟨quoted_absent_of_NL_absent hNL, quoted_absent_of_NL_absent hNL⟩

theorem rewrite_invariant_witness :
    containsL NETWORK_LITERAL
      (patchComposeLine jobIdEx "      - \"8080:80\"".data) = false :=
  ((rewrite_invariant jobIdEx
      [⟨PatchFileKind.composeFile, ["      - \"8080:80\"".data]⟩]
      (by decide) (by decide)
      (patchFile jobIdEx
        ⟨PatchFileKind.composeFile, ["      - \"8080:80\"".data]⟩)
      (List.mem_cons_self _ _)).1 rfl
    (patchComposeLine jobIdEx "      - \"8080:80\"".data)
    (List.mem_cons_self _ _)).1

end RunParallel
